import Mathlib

/-!
Verification of the derat/home telemetry platform against its specification.

The development shallowly embeds the components the claims concern:
the k-way merge of the query engine (appengine/storage/query.go), the
summarizer and purger (storage summarize code), the report handler
(appengine/app/main.go), the collector reporter (collector reporter code),
the alert condition evaluator, and the granularity planner.

Modelling conventions, used throughout:
* Go time.Time values are modelled as whole seconds; where the zero time
  (IsZero) is significant it is modelled either as the distinguished value 0
  of a Nat-valued clock (query merge) or as none of an Option (summarizer
  state), as noted at each definition.
* float32 / float64 values are modelled as exact rationals; NaN never arises
  in the modelled data paths except as the explicit placeholder of the merge
  output, which is modelled as none of an Option.
* Go integer division (which truncates toward zero) is Int.tdiv.
* Datastore reads and writes are modelled by explicit state passing; the
  claims under proof concern runs in which the store operations themselves
  succeed, and error returns that merely abort a run early are noted where
  they occur.
-/

namespace Home

namespace Query

/-- A point streamed by a per-series fetcher (appengine/storage/query.go, type
point). Timestamps model Go time.Time as whole seconds since the zero time, so
0 is the zero time (IsZero) and Before is the order on Nat. The err field of
the Go struct is not modelled: the claims quantify over error-free streams.
Values model float32 sample values as exact rationals. -/
structure Pt where
  ts : Nat
  val : ℚ
deriving Repr, DecidableEq

/-- A merged output row (query.go, type timeData): a timestamp plus one value
slot per series, with none modelling the NaN placeholder written for a series
that has no value at that time. -/
structure TimeData where
  ts : Nat
  values : List (Option ℚ)
deriving Repr, DecidableEq

/-- The merge state for one series: the pending point next[i] plus the points
its channel has not yet delivered. -/
structure SeriesState where
  pend : Option Pt
  rest : List Pt
deriving Repr, DecidableEq

/-- Channel receive into an empty slot (query.go lines 214-223): if next[i] is
nil and the channel is still open, receive one point into it. -/
def fillSlot (s : SeriesState) : SeriesState :=
  match s.pend, s.rest with
  | none, p :: r => ⟨some p, r⟩
  | pend, rest => ⟨pend, rest⟩

/-- The t computation of one pass of the merge loop (query.go lines 224-228):
t starts as the zero time and is replaced by next[i].timestamp whenever t is
zero or next[i].timestamp is before t, in index order. In Go the receive and
this comparison are interleaved in one pass over next; since the receive for
slot i does not depend on t, filling all slots first and then folding is the
same computation. -/
def minStep (t : Nat) (s : SeriesState) : Nat :=
  match s.pend with
  | none => t
  | some p => if t = 0 ∨ p.ts < t then p.ts else t

/-- The t computed by one pass, folding minStep over the slots in index
order. -/
def minTs (st : List SeriesState) : Nat :=
  st.foldl minStep 0

/-- The per-series write of one output row (query.go lines 237-244): if the
pending point's timestamp equals t its value is written and the slot cleared,
otherwise NaN (modelled none) is written and the slot kept. -/
def emitVal (t : Nat) (s : SeriesState) : Option ℚ × SeriesState :=
  match s.pend with
  | some p => if p.ts = t then (some p.val, ⟨none, s.rest⟩) else (none, s)
  | none => (none, s)

/-- The points a series still holds: the pending one, then the undelivered
ones. -/
def SeriesState.pts (s : SeriesState) : List Pt :=
  s.pend.toList ++ s.rest

/-- Number of points a series still holds. -/
def SeriesState.size (s : SeriesState) : Nat :=
  s.pts.length

/-- Total number of points a merge state still holds. -/
def stSize (st : List SeriesState) : Nat :=
  (st.map SeriesState.size).sum

/-- The loop of mergeQueryData (query.go lines 211-246). Each pass fills the
empty slots from the channels, computes t, stops when t is still the zero time
(all channels closed and no pending nonzero minimum), and otherwise emits the
row for t. fuel bounds the number of passes; mergeQueryData supplies enough
fuel for the loop to run to completion, since each emitted row consumes at
least one point. -/
def mergeLoop : Nat → List SeriesState → List TimeData
  | 0, _ => []
  | fuel + 1, st =>
    let st1 := st.map fillSlot
    let t := minTs st1
    if t = 0 then []
    else ⟨t, st1.map (fun s => (emitVal t s).1)⟩ ::
      mergeLoop fuel (st1.map (fun s => (emitVal t s).2))

/-- The initial merge state for a set of input streams: every slot empty,
every stream undelivered. -/
def initSt (streams : List (List Pt)) : List SeriesState :=
  streams.map (fun s => ⟨none, s⟩)

/-- mergeQueryData (query.go lines 208-248) as a function from the per-series
input streams (each the sequence of points its channel delivers, in order) to
the emitted rows. -/
def mergeQueryData (streams : List (List Pt)) : List TimeData :=
  mergeLoop (stSize (initSt streams) + 1) (initSt streams)

/-- The value a stream contributes at time t: the value of its first point
with timestamp t, if any. -/
def valueAt (t : Nat) (s : List Pt) : Option ℚ :=
  (s.find? (fun p => p.ts = t)).map Pt.val

/-- Sanity: the merge of the six streams of TestMergeQueryData
(query_test.go lines 142-191), with the test values scaled by ten to keep
them integral, produces the expected nine rows. -/
example :
    mergeQueryData
      [[⟨1, 1⟩, ⟨2, 2⟩, ⟨5, 5⟩],
       [⟨1, 11⟩, ⟨3, 13⟩, ⟨6, 16⟩],
       [⟨2, 22⟩, ⟨4, 24⟩, ⟨7, 27⟩],
       [⟨5, 35⟩],
       [⟨3, 43⟩, ⟨6, 46⟩, ⟨8, 48⟩, ⟨9, 49⟩],
       []] =
      [⟨1, [some 1, some 11, none, none, none, none]⟩,
       ⟨2, [some 2, none, some 22, none, none, none]⟩,
       ⟨3, [none, some 13, none, none, some 43, none]⟩,
       ⟨4, [none, none, some 24, none, none, none]⟩,
       ⟨5, [some 5, none, none, some 35, none, none]⟩,
       ⟨6, [none, some 16, none, none, some 46, none]⟩,
       ⟨7, [none, none, some 27, none, none, none]⟩,
       ⟨8, [none, none, none, none, some 48, none]⟩,
       ⟨9, [none, none, none, none, some 49, none]⟩] := by
  decide

/-- Filling a slot does not change the points a series holds: the received
point moves from the head of the undelivered list into the slot. -/
theorem fillSlot_pts (s : SeriesState) : (fillSlot s).pts = s.pts := by
  cases s with
  | mk pend rest =>
    cases pend <;> cases rest <;> rfl

/-- After filling, an empty slot means the channel is exhausted. -/
theorem fillSlot_none (s : SeriesState) (h : (fillSlot s).pend = none) :
    (fillSlot s).rest = [] := by
  cases s with
  | mk pend rest =>
    cases pend <;> cases rest <;> simp_all [fillSlot]

/-- The emitted slot keeps a subset of the series points. -/
theorem emitVal_pts_subset (t : Nat) (s : SeriesState) :
    ((emitVal t s).2).pts ⊆ s.pts := by
  cases s with
  | mk pend rest =>
    cases pend with
    | none => simp [emitVal]
    | some p =>
      by_cases hp : p.ts = t <;>
        simp only [emitVal, hp, if_true, if_false, reduceIte, SeriesState.pts,
          Option.toList_some, Option.toList_none, List.nil_append,
          List.cons_append, List.subset_def, List.mem_cons] <;>
        intro a ha <;> tauto

/-- Emitting never grows a series. -/
theorem emitVal_size_le (t : Nat) (s : SeriesState) :
    ((emitVal t s).2).size ≤ s.size := by
  cases s with
  | mk pend rest =>
    cases pend with
    | none => simp [emitVal]
    | some p =>
      by_cases hp : p.ts = t <;>
        simp [emitVal, hp, SeriesState.size, SeriesState.pts]

/-- Emitting a matching pending point strictly shrinks the series. -/
theorem emitVal_size_lt (t : Nat) (s : SeriesState) (p : Pt)
    (hp : s.pend = some p) (ht : p.ts = t) :
    ((emitVal t s).2).size < s.size := by
  cases s with
  | mk pend rest =>
    cases hp
    simp [emitVal, ht, SeriesState.size, SeriesState.pts]

/-- Total size of a state as a sum over its series. -/
theorem stSize_cons (s : SeriesState) (st : List SeriesState) :
    stSize (s :: st) = s.size + stSize st := by
  simp [stSize]

/-- Filling preserves the total size. -/
theorem stSize_map_fillSlot (st : List SeriesState) :
    stSize (st.map fillSlot) = stSize st := by
  induction st with
  | nil => rfl
  | cons s tl ih =>
    simp only [List.map_cons, stSize_cons, ih, SeriesState.size, fillSlot_pts]

/-- Emitting never grows the total size. -/
theorem stSize_emit_le (t : Nat) (st : List SeriesState) :
    stSize (st.map fun s => (emitVal t s).2) ≤ stSize st := by
  induction st with
  | nil => simp [stSize]
  | cons u tu ihu =>
    simp only [List.map_cons, stSize_cons]
    exact Nat.add_le_add (emitVal_size_le t u) ihu

/-- Emitting shrinks the total size when some slot holds a point stamped t. -/
theorem stSize_emit_lt (t : Nat) (st : List SeriesState)
    (h : ∃ s ∈ st, ∃ p, s.pend = some p ∧ p.ts = t) :
    stSize (st.map fun s => (emitVal t s).2) < stSize st := by
  induction st with
  | nil => simp at h
  | cons s tl ih =>
    rcases h with ⟨s', hs', p, hp, hpt⟩
    rcases List.mem_cons.mp hs' with hs' | hs'
    · subst hs'
      have h1 := emitVal_size_lt t s' p hp hpt
      have h2 := stSize_emit_le t tl
      simp only [List.map_cons, stSize_cons]
      omega
    · have h1 := ih ⟨s', hs', p, hp, hpt⟩
      have h2 := emitVal_size_le t s
      simp only [List.map_cons, stSize_cons]
      omega

/-- The t computed by a pass is either the start accumulator or the timestamp
of some pending point. -/
theorem foldl_minStep_mem (st : List SeriesState) (acc : Nat) :
    st.foldl minStep acc = acc ∨
      ∃ s ∈ st, ∃ p, s.pend = some p ∧ p.ts = st.foldl minStep acc := by
  induction st generalizing acc with
  | nil => exact Or.inl rfl
  | cons s tl ih =>
    simp only [List.foldl_cons]
    rcases ih (minStep acc s) with h | ⟨s', hs', p, hp, hpt⟩
    · rw [h]
      cases hpend : s.pend with
      | none => exact Or.inl (by simp [minStep, hpend])
      | some p =>
        by_cases hc : acc = 0 ∨ p.ts < acc
        · exact Or.inr ⟨s, List.mem_cons_self s tl, p, hpend, by simp [minStep, hpend, hc]⟩
        · exact Or.inl (by simp [minStep, hpend, hc])
    · exact Or.inr ⟨s', List.mem_cons_of_mem s hs', p, hp, hpt⟩

/-- When every pending timestamp is nonzero, a pass started from a nonzero
accumulator never increases it and never returns zero. -/
theorem foldl_minStep_dec (st : List SeriesState) (acc : Nat)
    (hpos : ∀ s ∈ st, ∀ p, s.pend = some p → 0 < p.ts) (hacc : acc ≠ 0) :
    st.foldl minStep acc ≤ acc ∧ st.foldl minStep acc ≠ 0 := by
  induction st generalizing acc with
  | nil => exact ⟨Nat.le_refl acc, hacc⟩
  | cons s tl ih =>
    simp only [List.foldl_cons]
    have hpos' : ∀ s' ∈ tl, ∀ p, s'.pend = some p → 0 < p.ts :=
      fun s' hs' => hpos s' (List.mem_cons_of_mem s hs')
    cases hpend : s.pend with
    | none =>
      have : minStep acc s = acc := by simp [minStep, hpend]
      rw [this]
      exact ih acc hpos' hacc
    | some p =>
      have hp : 0 < p.ts := hpos s (List.mem_cons_self s tl) p hpend
      have h1 : minStep acc s ≤ acc ∧ minStep acc s ≠ 0 := by
        simp only [minStep, hpend]
        by_cases hc : acc = 0 ∨ p.ts < acc
        · rcases hc with hc | hc
          · exact absurd hc hacc
          · simp only [if_pos (Or.inr hc)]
            exact ⟨Nat.le_of_lt hc, Nat.pos_iff_ne_zero.mp hp⟩
        · simp only [if_neg hc]
          exact ⟨Nat.le_refl acc, hacc⟩
      have h2 := ih (minStep acc s) hpos' h1.2
      exact ⟨Nat.le_trans h2.1 h1.1, h2.2⟩

/-- When every pending timestamp is nonzero, the t computed by a pass is a
lower bound on the pending timestamps: it is the minimum of the slots. -/
theorem foldl_minStep_le (st : List SeriesState) (acc : Nat)
    (hpos : ∀ s ∈ st, ∀ p, s.pend = some p → 0 < p.ts) :
    ∀ s ∈ st, ∀ p, s.pend = some p → st.foldl minStep acc ≤ p.ts := by
  induction st generalizing acc with
  | nil => intro s hs; exact absurd hs (List.not_mem_nil s)
  | cons s tl ih =>
    intro s' hs' p hp
    simp only [List.foldl_cons]
    have hpos' : ∀ u ∈ tl, ∀ p, u.pend = some p → 0 < p.ts :=
      fun u hu => hpos u (List.mem_cons_of_mem s hu)
    rcases List.mem_cons.mp hs' with rfl | hmem
    · have hple : minStep acc s' ≤ p.ts ∧ minStep acc s' ≠ 0 := by
        simp only [minStep, hp]
        by_cases hc : acc = 0 ∨ p.ts < acc
        · simp only [if_pos hc]
          exact ⟨Nat.le_refl _, Nat.pos_iff_ne_zero.mp (hpos s' (List.mem_cons_self s' tl) p hp)⟩
        · simp only [if_neg hc]
          push_neg at hc
          exact ⟨hc.2, hc.1⟩
      exact Nat.le_trans (foldl_minStep_dec tl _ hpos' hple.2).1 hple.1
    · exact ih (minStep acc s) hpos' s' hmem p hp

/-- When every pending timestamp is nonzero and some slot is filled, the t
computed by a pass is nonzero. -/
theorem foldl_minStep_ne_zero (st : List SeriesState) (acc : Nat)
    (hpos : ∀ s ∈ st, ∀ p, s.pend = some p → 0 < p.ts)
    (h : acc ≠ 0 ∨ ∃ s ∈ st, ∃ p, s.pend = some p) :
    st.foldl minStep acc ≠ 0 := by
  induction st generalizing acc with
  | nil =>
    rcases h with h | ⟨s, hs, _⟩
    · exact h
    · exact absurd hs (List.not_mem_nil s)
  | cons s tl ih =>
    simp only [List.foldl_cons]
    have hpos' : ∀ u ∈ tl, ∀ p, u.pend = some p → 0 < p.ts :=
      fun u hu => hpos u (List.mem_cons_of_mem s hu)
    cases hpend : s.pend with
    | none =>
      have heq : minStep acc s = acc := by simp [minStep, hpend]
      rw [heq]
      rcases h with h | ⟨s', hs', p, hp⟩
      · exact ih acc hpos' (Or.inl h)
      · rcases List.mem_cons.mp hs' with rfl | hmem
        · exact absurd hp (by simp [hpend])
        · exact ih acc hpos' (Or.inr ⟨s', hmem, p, hp⟩)
    | some p =>
      have hp : 0 < p.ts := hpos s (List.mem_cons_self s tl) p hpend
      have : minStep acc s ≠ 0 := by
        simp only [minStep, hpend]
        by_cases hc : acc = 0 ∨ p.ts < acc
        · simpa [if_pos hc] using Nat.pos_iff_ne_zero.mp hp
        · simp only [if_neg hc]
          push_neg at hc
          exact hc.1
      exact ih (minStep acc s) hpos' (Or.inl this)

/-- A nonzero t belongs to some pending point. -/
theorem minTs_mem (st : List SeriesState) (h : minTs st ≠ 0) :
    ∃ s ∈ st, ∃ p, s.pend = some p ∧ p.ts = minTs st := by
  rcases foldl_minStep_mem st 0 with h0 | hm
  · exact absurd h0 h
  · exact hm

/-- With nonzero pending timestamps, t bounds every pending timestamp. -/
theorem minTs_le (st : List SeriesState)
    (hpos : ∀ s ∈ st, ∀ p, s.pend = some p → 0 < p.ts) :
    ∀ s ∈ st, ∀ p, s.pend = some p → minTs st ≤ p.ts :=
  foldl_minStep_le st 0 hpos

/-- With nonzero pending timestamps and at least one filled slot, t is
nonzero, so the merge loop does not stop. -/
theorem minTs_ne_zero (st : List SeriesState)
    (hpos : ∀ s ∈ st, ∀ p, s.pend = some p → 0 < p.ts)
    (h : ∃ s ∈ st, ∃ p, s.pend = some p) : minTs st ≠ 0 :=
  foldl_minStep_ne_zero st 0 hpos (Or.inr h)

/-- minStep only reads the pending slot. -/
theorem minStep_congr (t : Nat) (a b : SeriesState) (h : a.pend = b.pend) :
    minStep t a = minStep t b := by
  simp [minStep, h]

/-- The t of a pass only reads the pending slots. -/
theorem minTs_congr (stA stB : List SeriesState)
    (h : List.Forall₂ (fun a b => a.pend = b.pend) stA stB) :
    minTs stA = minTs stB := by
  have aux : ∀ (stA stB : List SeriesState),
      List.Forall₂ (fun a b => a.pend = b.pend) stA stB →
      ∀ acc, stA.foldl minStep acc = stB.foldl minStep acc := by
    intro stA stB h
    induction h with
    | nil => intro acc; rfl
    | cons hab _ ih =>
      intro acc
      simp only [List.foldl_cons, minStep_congr acc _ _ hab]
      exact ih _
  exact aux stA stB h 0

/-- Forall₂ gives, for each right member, a related left member. -/
theorem forall₂_mem_right {α β : Type*} {R : α → β → Prop} :
    ∀ {as : List α} {bs : List β}, List.Forall₂ R as bs →
      ∀ b ∈ bs, ∃ a ∈ as, R a b := by
  intro as bs h
  induction h with
  | nil => intro b hb; exact absurd hb (List.not_mem_nil b)
  | cons hab htl ih =>
    intro b hb
    rcases List.mem_cons.mp hb with rfl | hb
    · exact ⟨_, List.mem_cons_self _ _, hab⟩
    · rcases ih b hb with ⟨a, ha, hr⟩
      exact ⟨a, List.mem_cons_of_mem _ ha, hr⟩

/-- Strengthen a pointwise relation with a fact that holds of every right
member. -/
theorem forall₂_and_right {α β : Type*} {R : α → β → Prop} {Q : β → Prop} :
    ∀ {as : List α} {bs : List β}, List.Forall₂ R as bs → (∀ b ∈ bs, Q b) →
      List.Forall₂ (fun a b => R a b ∧ Q b) as bs := by
  intro as bs h
  induction h with
  | nil => intro _; exact List.Forall₂.nil
  | cons hab htl ih =>
    intro hq
    exact List.Forall₂.cons ⟨hab, hq _ (List.mem_cons_self _ _)⟩
      (ih fun b hb => hq b (List.mem_cons_of_mem _ hb))

/-- Pointwise equal images give equal maps. -/
theorem forall₂_map_eq {α β γ : Type*} {f : α → γ} {g : β → γ} :
    ∀ {as : List α} {bs : List β},
      List.Forall₂ (fun a b => f a = g b) as bs → as.map f = bs.map g := by
  intro as bs h
  induction h with
  | nil => rfl
  | cons hab _ ih => simp only [List.map_cons, hab, ih]

/-- Per-series invariant of the merge loop with respect to the original input
stream orig: the stream splits into a consumed part, every point of which is
stamped at or before the bound lb (it was emitted in an earlier row), followed
by the points the series still holds, all strictly later than lb and strictly
ascending. -/
def SeriesOK (lb : Nat) (orig : List Pt) (s : SeriesState) : Prop :=
  ∃ c, orig = c ++ s.pts ∧ (∀ p ∈ c, p.ts ≤ lb) ∧
    (∀ p ∈ s.pts, lb < p.ts) ∧ List.Pairwise (fun a b => a.ts < b.ts) s.pts

/-- Filling a slot preserves the per-series invariant. -/
theorem seriesOK_fillSlot {lb : Nat} {o : List Pt} {s : SeriesState}
    (h : SeriesOK lb o s) : SeriesOK lb o (fillSlot s) := by
  simpa only [SeriesOK, fillSlot_pts] using h

/-- A pending point is among the series points. -/
theorem pend_mem_pts {s : SeriesState} {p : Pt} (hp : s.pend = some p) :
    p ∈ s.pts := by
  simp [SeriesState.pts, hp]

/-- One emission step of one series: starting from the invariant at bound lb,
emitting at a time t that is later than lb and at or before the pending
timestamp re-establishes the invariant at bound t, and the emitted slot value
is exactly the value the original stream holds at time t. -/
theorem seriesOK_emit {lb t : Nat} {o : List Pt} {s : SeriesState}
    (h : SeriesOK lb o s)
    (hfill : s.pend = none → s.rest = [])
    (hle : ∀ p, s.pend = some p → t ≤ p.ts)
    (hlbt : lb < t) :
    SeriesOK t o ((emitVal t s).2) ∧ (emitVal t s).1 = valueAt t o := by
  rcases h with ⟨c, horig, hc, hgt, hpair⟩
  have hcfind : c.find? (fun p => p.ts = t) = none := by
    rw [List.find?_eq_none]
    intro q hq
    have := hc q hq
    simp only [decide_eq_true_eq]
    omega
  cases hpend : s.pend with
  | none =>
    have hrest : s.rest = [] := hfill hpend
    have hpts : s.pts = [] := by simp [SeriesState.pts, hpend, hrest]
    have hemit : emitVal t s = (none, s) := by simp [emitVal, hpend]
    rw [hemit]
    constructor
    · exact ⟨c, horig, fun p hp => Nat.le_of_lt (Nat.lt_of_le_of_lt (hc p hp) hlbt),
        by rw [hpts]; intro p hp; exact absurd hp (List.not_mem_nil p),
        by rw [hpts]; exact List.Pairwise.nil⟩
    · simp only [valueAt, horig, hpts, List.append_nil, hcfind, Option.map_none']
  | some p =>
    have hpts : s.pts = p :: s.rest := by simp [SeriesState.pts, hpend]
    by_cases hpt : p.ts = t
    · have hemit : emitVal t s = (some p.val, ⟨none, s.rest⟩) := by
        simp [emitVal, hpend, hpt]
      rw [hemit]
      have hrest_gt : ∀ q ∈ s.rest, t < q.ts := by
        intro q hq
        have := (List.pairwise_cons.mp (hpts ▸ hpair)).1 q hq
        omega
      constructor
      · refine ⟨c ++ [p], ?_, ?_, ?_, ?_⟩
        · rw [horig, hpts]
          simp [SeriesState.pts]
        · intro q hq
          rcases List.mem_append.mp hq with hq | hq
          · exact Nat.le_of_lt (Nat.lt_of_le_of_lt (hc q hq) hlbt)
          · simp only [List.mem_singleton] at hq
            subst hq
            omega
        · intro q hq
          simp only [SeriesState.pts, Option.toList_none, List.nil_append] at hq
          exact hrest_gt q hq
        · simp only [SeriesState.pts, Option.toList_none, List.nil_append]
          exact (List.pairwise_cons.mp (hpts ▸ hpair)).2
      · simp only [valueAt, horig, hpts, List.find?_append, hcfind, Option.none_or]
        have : List.find? (fun q => q.ts = t) (p :: s.rest) = some p := by
          simp [List.find?_cons, hpt]
        rw [this, Option.map_some']
    · have hemit : emitVal t s = (none, s) := by simp [emitVal, hpend, hpt]
      rw [hemit]
      have hptge : t ≤ p.ts := hle p hpend
      have hptgt : t < p.ts := by omega
      have hrest_gt : ∀ q ∈ s.rest, t < q.ts := by
        intro q hq
        have := (List.pairwise_cons.mp (hpts ▸ hpair)).1 q hq
        omega
      constructor
      · refine ⟨c, horig, fun q hq => Nat.le_of_lt (Nat.lt_of_le_of_lt (hc q hq) hlbt),
          ?_, hpair⟩
        intro q hq
        rw [hpts] at hq
        rcases List.mem_cons.mp hq with rfl | hq
        · exact hptgt
        · exact hrest_gt q hq
      · simp only [valueAt, horig, List.find?_append, hcfind, Option.none_or]
        have : List.find? (fun q => q.ts = t) s.pts = none := by
          rw [List.find?_eq_none]
          intro q hq
          rw [hpts] at hq
          simp only [decide_eq_true_eq]
          rcases List.mem_cons.mp hq with rfl | hq
          · omega
          · have := hrest_gt q hq
            omega
        rw [this, Option.map_none']

/-- The master invariant of the merge loop: with enough fuel and every series
satisfying the invariant at bound lb against its original stream, every
emitted row is stamped strictly later than lb, every row carries exactly the
values the original streams hold at the row's time, and the rows come out in
strictly ascending time order. -/
theorem mergeLoop_master :
    ∀ (fuel : Nat) (st : List SeriesState) (orig : List (List Pt)) (lb : Nat),
      stSize st < fuel →
      List.Forall₂ (SeriesOK lb) orig st →
      (∀ row ∈ mergeLoop fuel st, lb < row.ts ∧
        row.values = orig.map fun o => valueAt row.ts o) ∧
      List.Chain' (fun r₁ r₂ => r₁.ts < r₂.ts) (mergeLoop fuel st) := by
  intro fuel
  induction fuel with
  | zero =>
    intro st orig lb hsize _
    exact absurd hsize (Nat.not_lt_zero _)
  | succ fuel ih =>
    intro st orig lb hsize hinv
    have hinv1 : List.Forall₂ (SeriesOK lb) orig (st.map fillSlot) :=
      List.forall₂_map_right_iff.mpr (hinv.imp fun _ _ h => seriesOK_fillSlot h)
    by_cases h0 : minTs (st.map fillSlot) = 0
    · have hrows : mergeLoop (fuel + 1) st = [] := by
        rw [mergeLoop]
        simp only [h0, if_pos rfl, reduceIte]
      rw [hrows]
      exact ⟨fun row hrow => absurd hrow (List.not_mem_nil row), List.chain'_nil⟩
    · have hpos1 : ∀ s ∈ st.map fillSlot, ∀ p, s.pend = some p → 0 < p.ts := by
        intro s hs p hp
        rcases forall₂_mem_right hinv1 s hs with ⟨o, _, hok⟩
        rcases hok with ⟨c, _, _, hgt, _⟩
        exact Nat.lt_of_le_of_lt (Nat.zero_le lb) (hgt p (pend_mem_pts hp))
      rcases minTs_mem _ h0 with ⟨sj, hsj, pj, hpj, hptj⟩
      have hlbt : lb < minTs (st.map fillSlot) := by
        rcases forall₂_mem_right hinv1 sj hsj with ⟨o, _, hok⟩
        rcases hok with ⟨c, _, _, hgt, _⟩
        rw [← hptj]
        exact hgt pj (pend_mem_pts hpj)
      have hle := minTs_le _ hpos1
      have hfillnone : ∀ s ∈ st.map fillSlot, s.pend = none → s.rest = [] := by
        intro s hs
        rcases List.mem_map.mp hs with ⟨u, _, rfl⟩
        exact fillSlot_none u
      have hinv2 : List.Forall₂ (fun o s => SeriesOK lb o s ∧
          ((s.pend = none → s.rest = []) ∧
            ∀ p, s.pend = some p → minTs (st.map fillSlot) ≤ p.ts))
          orig (st.map fillSlot) :=
        forall₂_and_right hinv1 fun s hs =>
          ⟨hfillnone s hs, fun p hp => hle s hs p hp⟩
      have hstep : ∀ (o : List Pt) (s : SeriesState),
          SeriesOK lb o s ∧ ((s.pend = none → s.rest = []) ∧
            (∀ p, s.pend = some p → minTs (st.map fillSlot) ≤ p.ts)) →
          SeriesOK (minTs (st.map fillSlot)) o
              ((emitVal (minTs (st.map fillSlot)) s).2) ∧
            (emitVal (minTs (st.map fillSlot)) s).1 =
              valueAt (minTs (st.map fillSlot)) o :=
        fun o s h => seriesOK_emit h.1 h.2.1 h.2.2 hlbt
      have hinvNew : List.Forall₂ (SeriesOK (minTs (st.map fillSlot))) orig
          ((st.map fillSlot).map fun s => (emitVal (minTs (st.map fillSlot)) s).2) :=
        List.forall₂_map_right_iff.mpr (hinv2.imp fun o s h => (hstep o s h).1)
      have hvals : orig.map (fun o => valueAt (minTs (st.map fillSlot)) o) =
          (st.map fillSlot).map fun s => (emitVal (minTs (st.map fillSlot)) s).1 :=
        forall₂_map_eq (hinv2.imp fun o s h => ((hstep o s h).2).symm)
      have hsizeNew : stSize ((st.map fillSlot).map
          fun s => (emitVal (minTs (st.map fillSlot)) s).2) < stSize st := by
        have h1 := stSize_emit_lt (minTs (st.map fillSlot)) (st.map fillSlot)
          (by exact ⟨sj, hsj, pj, hpj, hptj⟩)
        rw [stSize_map_fillSlot] at h1
        exact h1
      have hfuelNew : stSize ((st.map fillSlot).map
          fun s => (emitVal (minTs (st.map fillSlot)) s).2) < fuel := by
        omega
      have hIH := ih _ orig (minTs (st.map fillSlot)) hfuelNew hinvNew
      have hrows : mergeLoop (fuel + 1) st =
          ⟨minTs (st.map fillSlot),
            (st.map fillSlot).map fun s => (emitVal (minTs (st.map fillSlot)) s).1⟩ ::
          mergeLoop fuel ((st.map fillSlot).map
            fun s => (emitVal (minTs (st.map fillSlot)) s).2) := by
        rw [mergeLoop]
        simp only [h0, reduceIte, if_neg h0]
      rw [hrows]
      constructor
      · intro row hrow
        rcases List.mem_cons.mp hrow with rfl | hrow
        · exact ⟨hlbt, hvals.symm⟩
        · have := (hIH.1 row hrow)
          exact ⟨Nat.lt_trans hlbt this.1, this.2⟩
      · rw [List.chain'_cons']
        refine ⟨?_, hIH.2⟩
        intro y hy
        exact (hIH.1 y (List.mem_of_mem_head? hy)).1

/-- Every row the loop emits is stamped with a nonzero time: the loop breaks
before emitting whenever t is still the zero time. -/
theorem mergeLoop_ts_ne_zero :
    ∀ (fuel : Nat) (st : List SeriesState), ∀ row ∈ mergeLoop fuel st,
      row.ts ≠ 0 := by
  intro fuel
  induction fuel with
  | zero => intro st row hrow; exact absurd hrow (List.not_mem_nil row)
  | succ fuel ih =>
    intro st row hrow
    rw [mergeLoop] at hrow
    by_cases h0 : minTs (st.map fillSlot) = 0
    · rw [if_pos h0] at hrow
      exact absurd hrow (List.not_mem_nil row)
    · rw [if_neg h0] at hrow
      rcases List.mem_cons.mp hrow with rfl | hrow
      · exact h0
      · exact ih _ row hrow

/-- With enough fuel and no zero-stamped input point, every point the state
still holds has its timestamp emitted in some row. -/
theorem mergeLoop_complete :
    ∀ (fuel : Nat) (st : List SeriesState),
      stSize st < fuel →
      (∀ s ∈ st, ∀ p ∈ s.pts, p.ts ≠ 0) →
      ∀ s ∈ st, ∀ p ∈ s.pts, ∃ row ∈ mergeLoop fuel st, row.ts = p.ts := by
  intro fuel
  induction fuel with
  | zero =>
    intro st hsize
    exact absurd hsize (Nat.not_lt_zero _)
  | succ fuel ih =>
    intro st hsize hpos s hs p hp
    have hpos1 : ∀ s1 ∈ st.map fillSlot, ∀ q ∈ s1.pts, q.ts ≠ 0 := by
      intro s1 hs1 q hq
      rcases List.mem_map.mp hs1 with ⟨u, hu, rfl⟩
      rw [fillSlot_pts] at hq
      exact hpos u hu q hq
    have hpend1 : ∀ s1 ∈ st.map fillSlot, ∀ q, s1.pend = some q → 0 < q.ts := by
      intro s1 hs1 q hq
      exact Nat.pos_of_ne_zero (hpos1 s1 hs1 q (pend_mem_pts hq))
    have hs1mem : fillSlot s ∈ st.map fillSlot := List.mem_map_of_mem fillSlot hs
    have hp1 : p ∈ (fillSlot s).pts := by rw [fillSlot_pts]; exact hp
    rw [mergeLoop]
    by_cases h0 : minTs (st.map fillSlot) = 0
    · exfalso
      have hnopend : (fillSlot s).pend = none := by
        cases hpend : (fillSlot s).pend with
        | none => rfl
        | some q =>
          exact absurd (minTs_ne_zero _ hpend1 ⟨fillSlot s, hs1mem, q, hpend⟩) (by simp [h0])
      have : (fillSlot s).pts = [] := by
        simp [SeriesState.pts, hnopend, fillSlot_none s hnopend]
      rw [this] at hp1
      exact absurd hp1 (List.not_mem_nil p)
    · rw [if_neg h0]
      by_cases hpt : p.ts = minTs (st.map fillSlot)
      · exact ⟨_, List.mem_cons_self _ _, hpt.symm⟩
      · rcases minTs_mem _ h0 with ⟨sj, hsj, pj, hpj, hptj⟩
        have hsizeNew : stSize ((st.map fillSlot).map
            fun s => (emitVal (minTs (st.map fillSlot)) s).2) < stSize st := by
          have h1 := stSize_emit_lt (minTs (st.map fillSlot)) (st.map fillSlot)
            (by exact ⟨sj, hsj, pj, hpj, hptj⟩)
          rw [stSize_map_fillSlot] at h1
          exact h1
        have hposNew : ∀ s2 ∈ (st.map fillSlot).map
            (fun s => (emitVal (minTs (st.map fillSlot)) s).2),
            ∀ q ∈ s2.pts, q.ts ≠ 0 := by
          intro s2 hs2 q hq
          rcases List.mem_map.mp hs2 with ⟨s1, hs1, rfl⟩
          exact hpos1 s1 hs1 q (emitVal_pts_subset _ s1 hq)
        have hmem2 : (emitVal (minTs (st.map fillSlot)) (fillSlot s)).2 ∈
            (st.map fillSlot).map fun s => (emitVal (minTs (st.map fillSlot)) s).2 :=
          List.mem_map_of_mem _ hs1mem
        have hp2 : p ∈ ((emitVal (minTs (st.map fillSlot)) (fillSlot s)).2).pts := by
          cases hpend : (fillSlot s).pend with
          | none => simpa [emitVal, hpend] using hp1
          | some q =>
            by_cases hqt : q.ts = minTs (st.map fillSlot)
            · have : p ∈ (fillSlot s).rest := by
                have hpts : (fillSlot s).pts = q :: (fillSlot s).rest := by
                  simp [SeriesState.pts, hpend]
                rw [hpts] at hp1
                rcases List.mem_cons.mp hp1 with rfl | h
                · exact absurd hqt hpt
                · exact h
              simpa [emitVal, hpend, hqt, SeriesState.pts] using this
            · simpa [emitVal, hpend, hqt] using hp1
        rcases ih _ (by omega) hposNew _ hmem2 p hp2 with ⟨row, hrow, hrts⟩
        exact ⟨row, List.mem_cons_of_mem _ hrow, hrts⟩

/-- The loop result does not depend on the fuel once the fuel exceeds the
number of points held: the loop always stops by itself first. -/
theorem mergeLoop_fuel :
    ∀ (fuel fuel2 : Nat) (st : List SeriesState),
      stSize st < fuel → stSize st < fuel2 →
      mergeLoop fuel st = mergeLoop fuel2 st := by
  intro fuel
  induction fuel with
  | zero =>
    intro fuel2 st hsize
    exact absurd hsize (Nat.not_lt_zero _)
  | succ fuel ih =>
    intro fuel2 st hsize hsize2
    cases fuel2 with
    | zero => exact absurd hsize2 (Nat.not_lt_zero _)
    | succ fuel2 =>
      rw [mergeLoop, mergeLoop]
      by_cases h0 : minTs (st.map fillSlot) = 0
      · rw [if_pos h0, if_pos h0]
      · rw [if_neg h0, if_neg h0]
        rcases minTs_mem _ h0 with ⟨sj, hsj, pj, hpj, hptj⟩
        have hsizeNew : stSize ((st.map fillSlot).map
            fun s => (emitVal (minTs (st.map fillSlot)) s).2) < stSize st := by
          have h1 := stSize_emit_lt (minTs (st.map fillSlot)) (st.map fillSlot)
            (by exact ⟨sj, hsj, pj, hpj, hptj⟩)
          rw [stSize_map_fillSlot] at h1
          exact h1
        rw [ih fuel2 _ (by omega) (by omega)]

/-- Bisimulation relation between a series that still holds a zero-stamped
point z followed by post, and the same series truncated right after z. Either
the two sides are identical, or z has not been received yet and the rests
agree up to the tail after z, or z is stuck in the slot and only the rests
differ. -/
def SRel (z : Pt) (post : List Pt) (sA sB : SeriesState) : Prop :=
  sA = sB ∨
  (sA.pend = sB.pend ∧ ∃ r, sA.rest = r ++ z :: post ∧ sB.rest = r ++ [z]) ∨
  (sA.pend = some z ∧ sB.pend = some z ∧ sA.rest = post ∧ sB.rest = [])

/-- Related series have the same pending slot. -/
theorem srel_pend {z : Pt} {post : List Pt} {sA sB : SeriesState}
    (h : SRel z post sA sB) : sA.pend = sB.pend := by
  rcases h with rfl | ⟨h, _⟩ | ⟨h1, h2, _⟩
  · rfl
  · exact h
  · rw [h1, h2]

/-- A filled slot is left alone by the receive step. -/
theorem fillSlot_some {s : SeriesState} {p : Pt} (h : s.pend = some p) :
    fillSlot s = s := by
  cases s with
  | mk pend rest =>
    cases pend with
    | none => simp at h
    | some q => cases rest <;> rfl

/-- The receive step preserves the bisimulation relation. -/
theorem srel_fill {z : Pt} {post : List Pt} {sA sB : SeriesState}
    (h : SRel z post sA sB) : SRel z post (fillSlot sA) (fillSlot sB) := by
  rcases h with rfl | ⟨hpend, r, hA, hB⟩ | ⟨h1, h2, h3, h4⟩
  · exact Or.inl rfl
  · cases hpA : sA.pend with
    | some q =>
      rw [fillSlot_some hpA, fillSlot_some (hpend ▸ hpA)]
      exact Or.inr (Or.inl ⟨hpend, r, hA, hB⟩)
    | none =>
      have hpB : sB.pend = none := hpend ▸ hpA
      cases sA with
      | mk pendA restA =>
        cases sB with
        | mk pendB restB =>
          simp only at hpA hpB hA hB
          subst hpA hpB hA hB
          cases r with
          | nil =>
            exact Or.inr (Or.inr ⟨rfl, rfl, rfl, rfl⟩)
          | cons q r2 =>
            exact Or.inr (Or.inl ⟨rfl, r2, rfl, rfl⟩)
  · rw [fillSlot_some h1, fillSlot_some h2]
    exact Or.inr (Or.inr ⟨h1, h2, h3, h4⟩)

/-- The emit step at a nonzero time preserves the bisimulation relation and
produces the same slot value on both sides. -/
theorem srel_emit {z : Pt} {post : List Pt} {sA sB : SeriesState} {t : Nat}
    (hz : z.ts = 0) (ht : t ≠ 0) (h : SRel z post sA sB) :
    (emitVal t sA).1 = (emitVal t sB).1 ∧
      SRel z post ((emitVal t sA).2) ((emitVal t sB).2) := by
  rcases h with rfl | ⟨hpend, r, hA, hB⟩ | ⟨h1, h2, h3, h4⟩
  · exact ⟨rfl, Or.inl rfl⟩
  · cases hpA : sA.pend with
    | none =>
      have hpB : sB.pend = none := hpend ▸ hpA
      simp only [emitVal, hpA, hpB]
      exact ⟨by simp, Or.inr (Or.inl ⟨hpend, r, hA, hB⟩)⟩
    | some q =>
      have hpB : sB.pend = some q := hpend ▸ hpA
      by_cases hqt : q.ts = t
      · simp only [emitVal, hpA, hpB, hqt, if_pos rfl, reduceIte]
        exact ⟨by simp, Or.inr (Or.inl ⟨rfl, r, hA, hB⟩)⟩
      · simp only [emitVal, hpA, hpB, if_neg hqt, reduceIte]
        exact ⟨by simp, Or.inr (Or.inl ⟨hpend, r, hA, hB⟩)⟩
  · have hzt : z.ts ≠ t := by omega
    simp only [emitVal, h1, h2, if_neg hzt, reduceIte]
    exact ⟨by simp, Or.inr (Or.inr ⟨h1, h2, h3, h4⟩)⟩

/-- Related series hold at least as many points on the untruncated side. -/
theorem srel_size {z : Pt} {post : List Pt} {sA sB : SeriesState}
    (h : SRel z post sA sB) : sB.size ≤ sA.size := by
  rcases h with rfl | ⟨hpend, r, hA, hB⟩ | ⟨h1, h2, h3, h4⟩
  · exact Nat.le_refl _
  · simp only [SeriesState.size, SeriesState.pts, List.length_append, hA, hB,
      srel_pend (Or.inr (Or.inl ⟨hpend, r, hA, hB⟩))]
    simp [hpend]
  · simp [SeriesState.size, SeriesState.pts, h1, h2, h3, h4]

/-- Pointwise related states hold at least as many points on the untruncated
side. -/
theorem srel_stSize {z : Pt} {post : List Pt} :
    ∀ {stA stB : List SeriesState}, List.Forall₂ (SRel z post) stA stB →
      stSize stB ≤ stSize stA := by
  intro stA stB h
  induction h with
  | nil => exact Nat.le_refl _
  | cons hab _ ih =>
    simp only [stSize_cons]
    exact Nat.add_le_add (srel_size hab) ih

/-- Bisimulation: with the same fuel, the merge loop emits identical rows from
related states. A zero-stamped point is never consumed, so everything behind
it in its stream is unreachable and the two sides stay in lockstep. -/
theorem mergeLoop_srel {z : Pt} {post : List Pt} (hz : z.ts = 0) :
    ∀ (fuel : Nat) (stA stB : List SeriesState),
      List.Forall₂ (SRel z post) stA stB →
      mergeLoop fuel stA = mergeLoop fuel stB := by
  intro fuel
  induction fuel with
  | zero => intro stA stB _; rfl
  | succ fuel ih =>
    intro stA stB h
    have h1 : List.Forall₂ (SRel z post) (stA.map fillSlot) (stB.map fillSlot) := by
      rw [List.forall₂_map_right_iff, List.forall₂_map_left_iff]
      exact h.imp fun a b hab => srel_fill hab
    have hmin : minTs (stA.map fillSlot) = minTs (stB.map fillSlot) :=
      minTs_congr _ _ (h1.imp fun a b hab => srel_pend hab)
    rw [mergeLoop, mergeLoop, ← hmin]
    by_cases h0 : minTs (stA.map fillSlot) = 0
    · rw [if_pos h0, if_pos h0]
    · rw [if_neg h0, if_neg h0]
      have hvals : (stA.map fillSlot).map
          (fun s => (emitVal (minTs (stA.map fillSlot)) s).1) =
          (stB.map fillSlot).map
          (fun s => (emitVal (minTs (stA.map fillSlot)) s).1) :=
        forall₂_map_eq (h1.imp fun a b hab => (srel_emit hz h0 hab).1)
      have h2 : List.Forall₂ (SRel z post)
          ((stA.map fillSlot).map fun s => (emitVal (minTs (stA.map fillSlot)) s).2)
          ((stB.map fillSlot).map fun s => (emitVal (minTs (stA.map fillSlot)) s).2) := by
        rw [List.forall₂_map_right_iff, List.forall₂_map_left_iff]
        exact h1.imp fun a b hab => (srel_emit hz h0 hab).2
      rw [hvals, ih _ _ h2]

/-- Initially every series satisfies the invariant at bound 0 against its own
stream, provided the stream is strictly ascending with nonzero timestamps. -/
theorem forall₂_seriesOK_init (streams : List (List Pt))
    (hsort : ∀ s ∈ streams, List.Pairwise (fun a b => a.ts < b.ts) s)
    (hpos : ∀ s ∈ streams, ∀ p ∈ s, p.ts ≠ 0) :
    List.Forall₂ (SeriesOK 0) streams (initSt streams) := by
  rw [initSt, List.forall₂_map_right_iff, List.forall₂_same]
  intro s hs
  refine ⟨[], by simp [SeriesState.pts], by simp, ?_, ?_⟩
  · intro p hp
    exact Nat.pos_of_ne_zero (hpos s hs p (by simpa [SeriesState.pts] using hp))
  · simpa [SeriesState.pts] using hsort s hs

/-- C1: for every set of per-series input streams, each sorted in (strictly)
ascending timestamp order, as the per-series datastore queries deliver them,
and stamped with nonzero times, the k-way merge mergeQueryData emits its rows
in strictly ascending timestamp order, and each emitted row at timestamp t
carries, for every series i, the value of series i's point stamped t when the
series has one pending (equivalently, when the stream holds a point stamped
t), and NaN (modelled as none) otherwise. -/
theorem mergeQueryData_ordered_rows (streams : List (List Pt))
    (hsort : ∀ s ∈ streams, List.Pairwise (fun a b => a.ts < b.ts) s)
    (hpos : ∀ s ∈ streams, ∀ p ∈ s, p.ts ≠ 0) :
    List.Chain' (fun r₁ r₂ => r₁.ts < r₂.ts) (mergeQueryData streams) ∧
    ∀ row ∈ mergeQueryData streams,
      row.values = streams.map fun s => valueAt row.ts s := by
  have h := mergeLoop_master (stSize (initSt streams) + 1) (initSt streams)
    streams 0 (Nat.lt_succ_self _) (forall₂_seriesOK_init streams hsort hpos)
  exact ⟨h.2, fun row hrow => (h.1 row hrow).2⟩

/-- The six input streams of TestMergeQueryData, values scaled by ten. -/
def testStreams : List (List Pt) :=
  [[⟨1, 1⟩, ⟨2, 2⟩, ⟨5, 5⟩],
   [⟨1, 11⟩, ⟨3, 13⟩, ⟨6, 16⟩],
   [⟨2, 22⟩, ⟨4, 24⟩, ⟨7, 27⟩],
   [⟨5, 35⟩],
   [⟨3, 43⟩, ⟨6, 46⟩, ⟨8, 48⟩, ⟨9, 49⟩],
   []]

/-- Witness for C1 at the six concrete streams of TestMergeQueryData. -/
theorem mergeQueryData_ordered_rows_witness :
    ((∀ s ∈ testStreams, List.Pairwise (fun a b => a.ts < b.ts) s) ∧
      (∀ s ∈ testStreams, ∀ p ∈ s, p.ts ≠ 0)) ∧
    (List.Chain' (fun r₁ r₂ => r₁.ts < r₂.ts) (mergeQueryData testStreams) ∧
      ∀ row ∈ mergeQueryData testStreams,
        row.values = testStreams.map fun s => valueAt row.ts s) :=
  ⟨⟨by decide, by decide⟩,
    mergeQueryData_ordered_rows testStreams (by decide) (by decide)⟩

/-- Setting series i to its truncation right after the zero-stamped point z
relates the two initial merge states pointwise. -/
theorem forall₂_srel_init (z : Pt) (post : List Pt) :
    ∀ (streams : List (List Pt)) (i : Nat) (pre : List Pt),
      streams.get? i = some (pre ++ z :: post) →
      List.Forall₂ (SRel z post) (initSt streams)
        (initSt (streams.set i (pre ++ [z]))) := by
  intro streams
  induction streams with
  | nil => intro i pre h; simp at h
  | cons s tl ih =>
    intro i pre h
    cases i with
    | zero =>
      simp only [List.get?_cons_zero, Option.some_inj] at h
      subst h
      rw [List.set_cons_zero]
      refine List.Forall₂.cons ?_ ?_
      · exact Or.inr (Or.inl ⟨rfl, pre, rfl, rfl⟩)
      · rw [List.forall₂_same]
        intro u _
        exact Or.inl rfl
    | succ i =>
      rw [List.get?_cons_succ] at h
      rw [List.set_cons_succ]
      exact List.Forall₂.cons (Or.inl rfl) (ih i pre h)

/-- C10: the merge treats the zero time as the no-pending-data sentinel.
First, no output row is stamped with the zero time, so a point whose timestamp
is the zero time is never emitted in any row. Second, once a zero-stamped
point z is reached in series i, the merge output does not depend on anything
after z in that stream: truncating the stream right after z leaves the output
unchanged, so the series contributes no further values. Third, completeness,
i.e. every input point's timestamp reaching some output row, holds under the
precondition that every input point has a nonzero timestamp. -/
theorem mergeQueryData_zero_time_sentinel (streams : List (List Pt)) :
    (∀ row ∈ mergeQueryData streams, row.ts ≠ 0) ∧
    (∀ (i : Nat) (pre post : List Pt) (z : Pt), z.ts = 0 →
      streams.get? i = some (pre ++ z :: post) →
      mergeQueryData (streams.set i (pre ++ [z])) = mergeQueryData streams) ∧
    ((∀ s ∈ streams, ∀ p ∈ s, p.ts ≠ 0) →
      ∀ s ∈ streams, ∀ p ∈ s, ∃ row ∈ mergeQueryData streams, row.ts = p.ts) := by
  refine ⟨fun row hrow => mergeLoop_ts_ne_zero _ _ row hrow, ?_, ?_⟩
  · intro i pre post z hz hget
    have hrel := forall₂_srel_init z post streams i pre hget
    have hsize := srel_stSize hrel
    rw [mergeQueryData, mergeQueryData]
    rw [mergeLoop_fuel (stSize (initSt (streams.set i (pre ++ [z]))) + 1)
      (stSize (initSt streams) + 1) _ (Nat.lt_succ_self _) (by omega)]
    exact (mergeLoop_srel hz _ _ _ hrel).symm
  · intro hpos s hs p hp
    have hpos' : ∀ u ∈ initSt streams, ∀ q ∈ u.pts, q.ts ≠ 0 := by
      intro u hu q hq
      rcases List.mem_map.mp hu with ⟨o, ho, rfl⟩
      exact hpos o ho q (by simpa [SeriesState.pts] using hq)
    have hmem : (⟨none, s⟩ : SeriesState) ∈ initSt streams :=
      List.mem_map_of_mem _ hs
    exact mergeLoop_complete (stSize (initSt streams) + 1) (initSt streams)
      (Nat.lt_succ_self _) hpos' ⟨none, s⟩ hmem p
      (by simpa [SeriesState.pts] using hp)

/-- Witness for C10: a stream with a zero-stamped second point can be
truncated behind that point without changing the merge output, and on
zero-free streams every point's timestamp reaches a row. -/
theorem mergeQueryData_zero_time_sentinel_witness :
    ((⟨0, 7⟩ : Pt).ts = 0 ∧
      ([[⟨1, 4⟩, ⟨0, 7⟩, ⟨2, 9⟩], [⟨1, 5⟩]] : List (List Pt)).get? 0 =
        some ([⟨1, 4⟩] ++ ⟨0, 7⟩ :: [⟨2, 9⟩]) ∧
      mergeQueryData ([[⟨1, 4⟩, ⟨0, 7⟩, ⟨2, 9⟩], [⟨1, 5⟩]].set 0 ([⟨1, 4⟩] ++ [⟨0, 7⟩])) =
        mergeQueryData [[⟨1, 4⟩, ⟨0, 7⟩, ⟨2, 9⟩], [⟨1, 5⟩]]) ∧
    ((∀ s ∈ ([[⟨1, 5⟩], [⟨3, 6⟩]] : List (List Pt)), ∀ p ∈ s, p.ts ≠ 0) ∧
      ∃ row ∈ mergeQueryData [[⟨1, 5⟩], [⟨3, 6⟩]], row.ts = (⟨3, 6⟩ : Pt).ts) :=
  ⟨⟨rfl, rfl,
      (mergeQueryData_zero_time_sentinel [[⟨1, 4⟩, ⟨0, 7⟩, ⟨2, 9⟩], [⟨1, 5⟩]]).2.1
        0 [⟨1, 4⟩] [⟨2, 9⟩] ⟨0, 7⟩ rfl rfl⟩,
    ⟨by decide,
      (mergeQueryData_zero_time_sentinel [[⟨1, 5⟩], [⟨3, 6⟩]]).2.2 (by decide)
        [⟨3, 6⟩] (by decide) ⟨3, 6⟩ (by decide)⟩⟩

end Query

namespace Storage

/-- common.Sample: one measurement. Timestamp is unix seconds; the float32
value is modelled as an exact rational. -/
structure Sample where
  ts : Int
  source : String
  name : String
  value : ℚ
deriving Repr, DecidableEq

/-- The summary entity (storage summarize code, type summary): Timestamp is
the start of the summarized period, NumValues the number of samples folded in
so far, and min/max/avg the running aggregates (float32 modelled as exact
rationals). -/
structure Summary where
  timestamp : Int
  source : String
  name : String
  numValues : Int
  minValue : ℚ
  maxValue : ℚ
  avgValue : ℚ
deriving Repr, DecidableEq

/-- The "source|name" key under which a sample is aggregated (summarize code
line 171). -/
def sampleKey (s : Sample) : String :=
  s.source ++ "|" ++ s.name

/-- updateSummary (summarize code lines 170-192): incorporate sample sam into
the summary map sums, keyed "source|name", for the period starting at ts. The
Go map is modelled as an association list (insertion order stands in for the
map's unordered contents; the claims do not depend on the order). The Go
function panics when an existing entry's period differs from ts; the panic is
Except.error here. The update mirrors the source: increment NumValues to n,
take min/max against the sample value, and set avg to
avg*((n-1)/n) + v*(1/n), in exact rational arithmetic in place of float32. -/
def updateSummary (sums : List (String × Summary)) (sam : Sample) (ts : Int) :
    Except String (List (String × Summary)) :=
  match sums.lookup (sampleKey sam) with
  | some sum =>
    if sum.timestamp ≠ ts then
      Except.error ("summary for " ++ sampleKey sam ++ " starts at the wrong period")
    else
      Except.ok (sums.map fun e =>
        if e.1 = sampleKey sam then
          (e.1,
            { sum with
              numValues := sum.numValues + 1
              minValue := min sam.value sum.minValue
              maxValue := max sam.value sum.maxValue
              avgValue := sum.avgValue *
                  ((((sum.numValues + 1 : Int) : ℚ) - 1) / ((sum.numValues + 1 : Int) : ℚ)) +
                sam.value * (1 / ((sum.numValues + 1 : Int) : ℚ)) })
        else e)
  | none =>
    Except.ok (sums ++
      [(sampleKey sam, ⟨ts, sam.source, sam.name, 1, sam.value, sam.value, sam.value⟩)])

/-- A run of updateSummary calls over a list of samples sharing the period
start ts, starting from the empty map, as summarizeDay performs for the day
map. -/
def runUpdateSummaries (samples : List Sample) (ts : Int) :
    Except String (List (String × Summary)) :=
  samples.foldlM (fun m s => updateSummary m s ts) []

/-- Hour bucket of a timestamp (summarize code lines 284-286): truncation to
the clock hour on the UTC fields. On unix-second timestamps this is numeric
truncation to a multiple of 3600. -/
def hourStart (t : Int) : Int :=
  t - t % 3600

/-- One step of maintaining hourSums (summarize code lines 287-290): find or
create the per-hour map and fold the sample into it under its hour start. -/
def updateHourSums (hs : List (Int × List (String × Summary))) (s : Sample) :
    Except String (List (Int × List (String × Summary))) :=
  match hs.lookup (hourStart s.ts) with
  | some m => do
    let m2 ← updateSummary m s (hourStart s.ts)
    pure (hs.map fun e => if e.1 = hourStart s.ts then (e.1, m2) else e)
  | none => do
    let m2 ← updateSummary [] s (hourStart s.ts)
    pure (hs ++ [(hourStart s.ts, m2)])

/-- Abstract model of civil-time day arithmetic in one fixed zone:
startOfDay t models time.Date(y, m, d, 0, 0, 0, 0, loc) for t's local date,
and addDays t n models t.AddDate(0, 0, n). Keeping the zone abstract covers
any location, DST transitions included. -/
structure TimeModel where
  startOfDay : Int → Int
  addDays : Int → Int → Int

/-- AddDate(0, 0, 1). -/
def TimeModel.nextDay (tm : TimeModel) (t : Int) : Int :=
  tm.addDays t 1

/-- The facts about civil-time day arithmetic the proofs rely on, all true of
time.Date / Time.AddDate in a fixed zone: the day start is at or before its
instant, monotone and idempotent; adding a day commutes with taking the day
start; and every instant precedes the start of the next day. -/
structure TimeModel.Lawful (tm : TimeModel) : Prop where
  sod_le : ∀ t, tm.startOfDay t ≤ t
  sod_mono : ∀ {t u}, t ≤ u → tm.startOfDay t ≤ tm.startOfDay u
  sod_idem : ∀ t, tm.startOfDay (tm.startOfDay t) = tm.startOfDay t
  sod_nextDay : ∀ t, tm.startOfDay (tm.nextDay t) = tm.nextDay (tm.startOfDay t)
  lt_nextDay_sod : ∀ t, t < tm.nextDay (tm.startOfDay t)

/-- The UTC instance of the day arithmetic (fixed 86400-second days), used to
instantiate the abstract theorems on concrete inputs. -/
def utcModel : TimeModel :=
  ⟨fun t => t - t % 86400, fun t n => t + 86400 * n⟩

theorem utcModel_lawful : utcModel.Lawful := by
  constructor <;> intros <;>
    simp only [utcModel, TimeModel.nextDay] at * <;> omega

/-- The datastore sample query of summarizeDay (summarize code lines 257-260):
all samples, ordered by ascending timestamp, filtered to ts ≥ queryStart
unless queryStart is the zero time (modelled none). The store is represented
by its ts-ordered sample list, so the query is a filter. -/
def querySamples (samples : List Sample) (queryStart : Option Int) : List Sample :=
  match queryStart with
  | none => samples
  | some q => samples.filter fun s => q ≤ s.ts

/-- summarizeDay (summarize code lines 251-300): read samples from queryStart
on; the first sample defines the day (in the zone of tm); the read stops at
the first sample on a different day; the day's samples are folded into the
day map (keyed by source|name, period = the day start) and into the hour maps
(keyed by UTC hour start). Returns none when no samples were found, and
otherwise the day start together with the two summary maps that Go hands to
writeSummaries. Go updates the day and hour maps in one pass; their states
are independent, so two folds over the same day samples compute the same
maps. -/
def summarizeDay (tm : TimeModel) (samples : List Sample) (queryStart : Option Int) :
    Except String
      (Option (Int × List (String × Summary) × List (Int × List (String × Summary)))) :=
  match querySamples samples queryStart with
  | [] => Except.ok none
  | first :: rest => do
    let daySamples := (first :: rest).takeWhile fun s =>
      tm.startOfDay s.ts = tm.startOfDay first.ts
    let ds ← daySamples.foldlM (fun m s => updateSummary m s (tm.startOfDay first.ts)) []
    let hs ← daySamples.foldlM updateHourSums []
    Except.ok (some (tm.startOfDay first.ts, ds, hs))

/-- The loop of GenerateSummaries (summarize code lines 66-87), recorded as
the sequence of LastFullDay values Put to the SummaryState entity, in order.
Each pass summarizes one day; a day start is persisted only when it precedes
partialDay; the loop stops when a day summary finds no samples (and on a
store error, which only truncates the run). fuel bounds the passes;
GenerateSummaries supplies enough, each pass consuming at least the first
remaining sample. -/
def generateSummariesLoop (tm : TimeModel) (samples : List Sample) (partialDay : Int) :
    Nat → Option Int → List Int
  | 0, _ => []
  | fuel + 1, queryStart =>
    match summarizeDay tm samples queryStart with
    | Except.error _ => []
    | Except.ok none => []
    | Except.ok (some (dayStart, _, _)) =>
      if dayStart < partialDay then
        dayStart :: generateSummariesLoop tm samples partialDay fuel (some (tm.nextDay dayStart))
      else
        generateSummariesLoop tm samples partialDay fuel (some (tm.nextDay dayStart))

/-- GenerateSummaries (summarize code lines 40-89): partialDay is the start
of day of now − fullDayDelay; the loop starts at the day after the stored
LastFullDay, or at the zero time (none) when no state is stored. The result
is the sequence of LastFullDay writes and the stored LastFullDay after the
run (the last write, or the prior state when nothing was written). -/
def GenerateSummaries (tm : TimeModel) (samples : List Sample) (lfd0 : Option Int)
    (now fullDayDelay : Int) : List Int × Option Int :=
  let writes := generateSummariesLoop tm samples (tm.startOfDay (now - fullDayDelay))
    (samples.length + 1) (lfd0.map tm.nextDay)
  (writes, (writes.getLast?).orElse fun _ => lfd0)

/-- Deleting 300 samples at once (summarize code line 24). -/
def summaryDeleteBatchSize : Nat := 300

/-- The delete loop of DeleteSummarizedSamples (summarize code lines 107-139):
repeatedly run a keys-only query for samples with Timestamp < keepDay, limit
300, delete the returned keys, and stop when a batch comes back short (or
empty). Returns the deleted samples in deletion order together with the
remaining store. Delete failures only retry or abort the loop early and are
not modelled; sample keys are unique in the store, so key deletion is list
difference. -/
def deleteLoop (keepDay : Int) : Nat → List Sample → List Sample × List Sample
  | 0, samples => ([], samples)
  | fuel + 1, samples =>
    let keys := (samples.filter fun s => s.ts < keepDay).take summaryDeleteBatchSize
    if keys = [] then ([], samples)
    else if keys.length < summaryDeleteBatchSize then (keys, samples.diff keys)
    else
      let r := deleteLoop keepDay fuel (samples.diff keys)
      (keys ++ r.1, r.2)

/-- DeleteSummarizedSamples (summarize code lines 96-141): do nothing when
LastFullDay is the zero time (none); otherwise delete batches of samples
earlier than keepDay = LastFullDay.AddDate(0, 0, 1 − daysToKeep). -/
def DeleteSummarizedSamples (tm : TimeModel) (samples : List Sample)
    (lfd : Option Int) (daysToKeep : Int) : List Sample × List Sample :=
  match lfd with
  | none => ([], samples)
  | some lastFullDay =>
    deleteLoop (tm.addDays lastFullDay (1 - daysToKeep)) (samples.length + 1) samples

/-- A successful day summary starts at the day of the first queried sample. -/
theorem summarizeDay_ok_some (tm : TimeModel) (samples : List Sample)
    (q0 : Option Int) (ds : Int)
    (x : List (String × Summary)) (y : List (Int × List (String × Summary)))
    (h : summarizeDay tm samples q0 = Except.ok (some (ds, x, y))) :
    ∃ first rest, querySamples samples q0 = first :: rest ∧
      ds = tm.startOfDay first.ts := by
  unfold summarizeDay at h
  cases hq : querySamples samples q0 with
  | nil => rw [hq] at h; simp at h
  | cons f r =>
    rw [hq] at h
    dsimp only at h
    refine ⟨f, r, rfl, ?_⟩
    cases h1 : ((f :: r).takeWhile fun s =>
        tm.startOfDay s.ts = tm.startOfDay f.ts).foldlM
        (fun m s => updateSummary m s (tm.startOfDay f.ts)) [] with
    | error e => rw [h1] at h; simp [Bind.bind, Except.bind] at h
    | ok a =>
      rw [h1] at h
      cases h2 : ((f :: r).takeWhile fun s =>
          tm.startOfDay s.ts = tm.startOfDay f.ts).foldlM updateHourSums [] with
      | error e => rw [h2] at h; simp [Bind.bind, Except.bind] at h
      | ok b =>
        rw [h2] at h
        simp only [Bind.bind, Except.bind, Except.ok.injEq, Option.some.injEq,
          Prod.mk.injEq] at h
        exact h.1.symm

/-- Every LastFullDay value the loop writes precedes partialDay: the loop
persists a day start only under its guard. -/
theorem generateSummariesLoop_writes_lt (tm : TimeModel) (samples : List Sample)
    (partialDay : Int) :
    ∀ (fuel : Nat) (q0 : Option Int),
      ∀ d ∈ generateSummariesLoop tm samples partialDay fuel q0, d < partialDay := by
  intro fuel
  induction fuel with
  | zero => intro q0 d hd; exact absurd hd (List.not_mem_nil d)
  | succ fuel ih =>
    intro q0 d hd
    rw [generateSummariesLoop] at hd
    cases hsd : summarizeDay tm samples q0 with
    | error e => rw [hsd] at hd; exact absurd hd (List.not_mem_nil d)
    | ok o =>
      cases o with
      | none => rw [hsd] at hd; exact absurd hd (List.not_mem_nil d)
      | some v =>
        obtain ⟨dv, dx, dy⟩ := v
        rw [hsd] at hd
        dsimp only at hd
        by_cases hguard : dv < partialDay
        · rw [if_pos hguard] at hd
          rcases List.mem_cons.mp hd with rfl | hd
          · exact hguard
          · exact ih _ d hd
        · rw [if_neg hguard] at hd
          exact ih _ d hd

/-- Every LastFullDay value written by a loop started at query time q is at or
after the start of q's day: summarized days only move forward. -/
theorem generateSummariesLoop_writes_lb (tm : TimeModel) (hL : tm.Lawful)
    (samples : List Sample) (partialDay : Int) :
    ∀ (fuel : Nat) (q : Int),
      ∀ d ∈ generateSummariesLoop tm samples partialDay fuel (some q),
        tm.startOfDay q ≤ d := by
  intro fuel
  induction fuel with
  | zero => intro q d hd; exact absurd hd (List.not_mem_nil d)
  | succ fuel ih =>
    intro q d hd
    rw [generateSummariesLoop] at hd
    cases hsd : summarizeDay tm samples (some q) with
    | error e => rw [hsd] at hd; exact absurd hd (List.not_mem_nil d)
    | ok o =>
      cases o with
      | none => rw [hsd] at hd; exact absurd hd (List.not_mem_nil d)
      | some v =>
        obtain ⟨dv, dx, dy⟩ := v
        rcases summarizeDay_ok_some tm samples (some q) dv dx dy hsd with
          ⟨first, rest, hq, hds⟩
        have hfmem : first ∈ samples.filter (fun s => decide (q ≤ s.ts)) := by
          have : querySamples samples (some q) =
              samples.filter (fun s => decide (q ≤ s.ts)) := rfl
          rw [this] at hq
          rw [hq]
          exact List.mem_cons_self _ _
        have hqle : q ≤ first.ts := by
          have := List.of_mem_filter hfmem
          simpa using this
        have hstart : tm.startOfDay q ≤ dv := by
          rw [hds]
          exact hL.sod_mono hqle
        have hnext : tm.startOfDay (tm.nextDay dv) = tm.nextDay dv := by
          rw [hL.sod_nextDay, hds, hL.sod_idem]
        have hgt : dv < tm.nextDay dv := by
          have := hL.lt_nextDay_sod dv
          rw [hds, hL.sod_idem, ← hds] at this
          exact this
        rw [hsd] at hd
        dsimp only at hd
        have htail : ∀ e ∈ generateSummariesLoop tm samples partialDay fuel
            (some (tm.nextDay dv)), tm.startOfDay q ≤ e := by
          intro e he
          have h1 := ih (tm.nextDay dv) e he
          rw [hnext] at h1
          omega
        by_cases hguard : dv < partialDay
        · rw [if_pos hguard] at hd
          rcases List.mem_cons.mp hd with rfl | hd
          · exact hstart
          · exact htail d hd
        · rw [if_neg hguard] at hd
          exact htail d hd

/-- Ordering on the stored LastFullDay: an absent state (the zero time) is no
constraint; a present state never regresses to absent and never decreases. -/
def lfdLE : Option Int → Option Int → Prop
  | none, _ => True
  | some _, none => False
  | some a, some b => a ≤ b

/-- C2: for every run of GenerateSummaries(now, fullDayDelay), the stored
SummaryState.LastFullDay after the run is at least its value before the run,
and every day written as LastFullDay during the run is strictly earlier than
the start of day of now − fullDayDelay, for any lawful single-zone day
arithmetic, any stored sample list and any prior state. -/
theorem GenerateSummaries_lastFullDay (tm : TimeModel) (hL : tm.Lawful)
    (samples : List Sample) (lfd0 : Option Int) (now fullDayDelay : Int) :
    (∀ d ∈ (GenerateSummaries tm samples lfd0 now fullDayDelay).1,
      d < tm.startOfDay (now - fullDayDelay)) ∧
    lfdLE lfd0 (GenerateSummaries tm samples lfd0 now fullDayDelay).2 := by
  constructor
  · intro d hd
    exact generateSummariesLoop_writes_lt tm samples _ _ _ d hd
  · cases hlfd : lfd0 with
    | none => simp [lfdLE]
    | some L0 =>
      simp only [GenerateSummaries, hlfd, Option.map_some']
      cases hlast : (generateSummariesLoop tm samples
          (tm.startOfDay (now - fullDayDelay)) (samples.length + 1)
          (some (tm.nextDay L0))).getLast? with
      | none =>
        simp only [hlast, Option.orElse, Option.none_orElse]
        simp [lfdLE]
      | some d =>
        have hdmem := List.mem_of_mem_getLast? hlast
        have hlb := generateSummariesLoop_writes_lb tm hL samples
          (tm.startOfDay (now - fullDayDelay)) (samples.length + 1)
          (tm.nextDay L0) d hdmem
        have hL0 : L0 < tm.startOfDay (tm.nextDay L0) := by
          rw [hL.sod_nextDay]
          exact hL.lt_nextDay_sod L0
        simp only [hlast, Option.orElse, Option.some_orElse]
        show L0 ≤ d
        omega

/-- Witness for C2: a concrete run over the UTC day model, with a stored
LastFullDay of day 1 and samples on day 3. -/
theorem GenerateSummaries_lastFullDay_witness :
    (∀ d ∈ (GenerateSummaries utcModel [⟨86400 * 3 + 100, "a", "b", 5⟩]
        (some 86400) (86400 * 10) 3600).1,
      d < utcModel.startOfDay (86400 * 10 - 3600)) ∧
    lfdLE (some 86400) (GenerateSummaries utcModel [⟨86400 * 3 + 100, "a", "b", 5⟩]
        (some 86400) (86400 * 10) 3600).2 :=
  GenerateSummaries_lastFullDay utcModel utcModel_lawful
    [⟨86400 * 3 + 100, "a", "b", 5⟩] (some 86400) (86400 * 10) 3600

/-- Every sample the delete loop removes is earlier than keepDay: the batches
are drawn from the keys-only query filtered on Timestamp < keepDay. -/
theorem deleteLoop_bound (keepDay : Int) :
    ∀ (fuel : Nat) (samples : List Sample),
      ∀ s ∈ (deleteLoop keepDay fuel samples).1, s.ts < keepDay := by
  intro fuel
  induction fuel with
  | zero => intro samples s hs; exact absurd hs (List.not_mem_nil s)
  | succ fuel ih =>
    intro samples s hs
    rw [deleteLoop] at hs
    by_cases hempty : (samples.filter fun s => s.ts < keepDay).take
        summaryDeleteBatchSize = []
    · rw [if_pos hempty] at hs
      exact absurd hs (List.not_mem_nil s)
    · rw [if_neg hempty] at hs
      have hbatch : ∀ u ∈ (samples.filter fun s => s.ts < keepDay).take
          summaryDeleteBatchSize, u.ts < keepDay := by
        intro u hu
        have := List.of_mem_filter (List.take_subset _ _ hu)
        simpa using this
      by_cases hshort : ((samples.filter fun s => s.ts < keepDay).take
          summaryDeleteBatchSize).length < summaryDeleteBatchSize
      · rw [if_pos hshort] at hs
        exact hbatch s hs
      · rw [if_neg hshort] at hs
        rcases List.mem_append.mp hs with hs | hs
        · exact hbatch s hs
        · exact ih _ s hs

/-- C3: DeleteSummarizedSamples never issues a delete for a sample with
timestamp at or after keepDay = LastFullDay.AddDate(0, 0, 1 − daysToKeep),
i.e. it never deletes a sample whose day is later than
LastFullDay − (daysToKeep − 1) days; and when LastFullDay is the zero time it
deletes nothing. -/
theorem DeleteSummarizedSamples_keeps (tm : TimeModel) (samples : List Sample)
    (lfd : Option Int) (daysToKeep : Int) :
    (lfd = none → (DeleteSummarizedSamples tm samples lfd daysToKeep).1 = []) ∧
    ∀ L, lfd = some L →
      ∀ s ∈ (DeleteSummarizedSamples tm samples lfd daysToKeep).1,
        s.ts < tm.addDays L (1 - daysToKeep) := by
  constructor
  · intro hnone
    subst hnone
    rfl
  · intro L hsome s hs
    subst hsome
    exact deleteLoop_bound _ _ _ s hs

/-- Witness for C3: a concrete store over the UTC day model, with
LastFullDay = day 5 and daysToKeep = 2. -/
theorem DeleteSummarizedSamples_keeps_witness :
    ((none : Option Int) = none →
      (DeleteSummarizedSamples utcModel [⟨10, "a", "b", 1⟩] none 2).1 = []) ∧
    ∀ L, (some (86400 * 5) : Option Int) = some L →
      ∀ s ∈ (DeleteSummarizedSamples utcModel
          [⟨10, "a", "b", 1⟩, ⟨86400 * 5 + 7, "a", "b", 2⟩] (some (86400 * 5)) 2).1,
        s.ts < utcModel.addDays L (1 - 2) :=
  ⟨(DeleteSummarizedSamples_keeps utcModel [⟨10, "a", "b", 1⟩] none 2).1,
    (DeleteSummarizedSamples_keeps utcModel
      [⟨10, "a", "b", 1⟩, ⟨86400 * 5 + 7, "a", "b", 2⟩] (some (86400 * 5)) 2).2⟩

/-- A successful association-list lookup locates an entry. -/
theorem lookup_mem {β : Type*} {l : List (String × β)} {k : String} {v : β}
    (h : List.lookup k l = some v) : (k, v) ∈ l := by
  induction l with
  | nil => simp [List.lookup] at h
  | cons e tl ih =>
    rw [List.lookup] at h
    by_cases hk : k = e.1
    · have : (k == e.1) = true := beq_iff_eq.mpr hk
      rw [this] at h
      simp only [Option.some_inj] at h
      subst h
      rw [hk]
      exact List.mem_cons_self _ _
    · have : (k == e.1) = false := beq_eq_false_iff_ne.mpr hk
      rw [this] at h
      exact List.mem_cons_of_mem _ (ih h)

/-- A failed association-list lookup means no entry has the key. -/
theorem lookup_none {β : Type*} {l : List (String × β)} {k : String}
    (h : List.lookup k l = none) : ∀ e ∈ l, e.1 ≠ k := by
  induction l with
  | nil => intro e he; exact absurd he (List.not_mem_nil e)
  | cons e tl ih =>
    rw [List.lookup] at h
    intro e2 he2
    by_cases hk : k = e.1
    · rw [beq_iff_eq.mpr hk] at h
      simp at h
    · rw [beq_eq_false_iff_ne.mpr hk] at h
      rcases List.mem_cons.mp he2 with rfl | he2
      · exact fun hc => hk hc.symm
      · exact ih h e2 he2

/-- With distinct keys, an entry is determined by its key. -/
theorem nodup_key_unique {β : Type*} {l : List (String × β)} {k : String} {v w : β}
    (hnd : (l.map Prod.fst).Nodup) (hv : (k, v) ∈ l) (hw : (k, w) ∈ l) : v = w := by
  induction l with
  | nil => exact absurd hv (List.not_mem_nil _)
  | cons e tl ih =>
    rw [List.map_cons, List.nodup_cons] at hnd
    rcases List.mem_cons.mp hv with rfl | hv <;>
      rcases List.mem_cons.mp hw with hw | hw
    · exact (congrArg Prod.snd hw).symm
    · exact absurd (List.mem_map_of_mem Prod.fst hw) (by simpa using hnd.1)
    · exact absurd (List.mem_map_of_mem Prod.fst hv) (by
        rw [← hw] at hnd
        simpa using hnd.1)
    · exact ih hnd.2 hv hw

/-- The samples among processed that the map entry keyed k aggregates. -/
def contrib (processed : List Sample) (k : String) : List Sample :=
  processed.filter fun s => sampleKey s = k

/-- Appending a sample with a different key leaves a contribution list
unchanged. -/
theorem contrib_append_ne {processed : List Sample} {s : Sample} {k : String}
    (h : sampleKey s ≠ k) : contrib (processed ++ [s]) k = contrib processed k := by
  simp [contrib, List.filter_append, h]

/-- Appending a sample with the same key appends it to the contribution
list. -/
theorem contrib_append_eq {processed : List Sample} {s : Sample} {k : String}
    (h : sampleKey s = k) :
    contrib (processed ++ [s]) k = contrib processed k ++ [s] := by
  simp [contrib, List.filter_append, h]

/-- What one summary-map entry says about the samples processed so far, all
sharing the period start ts: the entry carries that period, counts exactly
its key's samples, its average times the count equals the sum of their
values, and its min and max bound every contributing value. -/
def EntrySpec (ts : Int) (processed : List Sample) (e : String × Summary) : Prop :=
  e.2.timestamp = ts ∧
  0 < (contrib processed e.1).length ∧
  e.2.numValues = ((contrib processed e.1).length : Int) ∧
  e.2.avgValue * ((contrib processed e.1).length : ℚ) =
    ((contrib processed e.1).map Sample.value).sum ∧
  ∀ s ∈ contrib processed e.1, e.2.minValue ≤ s.value ∧ s.value ≤ e.2.maxValue

/-- Invariant of the whole summary map against the processed samples: keys
are distinct, every processed sample has its entry, and every entry meets its
spec. -/
def MapInv (ts : Int) (processed : List Sample) (m : List (String × Summary)) : Prop :=
  (m.map Prod.fst).Nodup ∧
  (∀ s ∈ processed, sampleKey s ∈ m.map Prod.fst) ∧
  ∀ e ∈ m, EntrySpec ts processed e

/-- One updateSummary call preserves the map invariant (and never panics)
when every call shares the period start ts; the incorporated sample joins the
processed list. -/
theorem updateSummary_step (ts : Int) (processed : List Sample)
    (m : List (String × Summary)) (s : Sample) (hinv : MapInv ts processed m) :
    ∃ m2, updateSummary m s ts = Except.ok m2 ∧ MapInv ts (processed ++ [s]) m2 := by
  obtain ⟨hnd, hpres, hspec⟩ := hinv
  cases hlk : List.lookup (sampleKey s) m with
  | none =>
    have hknotin : sampleKey s ∉ m.map Prod.fst := by
      intro hc
      rcases List.mem_map.mp hc with ⟨e, he, hek⟩
      exact lookup_none hlk e he hek
    refine ⟨m ++ [(sampleKey s, ⟨ts, s.source, s.name, 1, s.value, s.value, s.value⟩)],
      by unfold updateSummary; rw [hlk], ?_, ?_, ?_⟩
    · rw [List.map_append, List.nodup_append]
      refine ⟨hnd, by simp, ?_⟩
      intro a ha hb
      simp only [List.map_cons, List.map_nil, List.mem_singleton] at hb
      subst hb
      exact hknotin ha
    · intro s2 hs2
      rw [List.map_append]
      rcases List.mem_append.mp hs2 with h | h
      · exact List.mem_append_left _ (hpres s2 h)
      · simp only [List.mem_singleton] at h
        subst h
        apply List.mem_append_right
        simp
    · intro e he
      rcases List.mem_append.mp he with he | he
      · have hne : sampleKey s ≠ e.1 := fun hc => (lookup_none hlk e he) hc.symm
        have hold := hspec e he
        unfold EntrySpec at hold ⊢
        rw [contrib_append_ne hne]
        exact hold
      · simp only [List.mem_singleton] at he
        subst he
        have hcontrib0 : contrib processed (sampleKey s) = [] := by
          by_contra hnil
          rcases List.exists_mem_of_ne_nil _ hnil with ⟨s2, hs2⟩
          have h1 : s2 ∈ processed := List.mem_of_mem_filter hs2
          have h2 : sampleKey s2 = sampleKey s := by
            simpa using List.of_mem_filter hs2
          exact hknotin (h2 ▸ hpres s2 h1)
        unfold EntrySpec
        rw [contrib_append_eq rfl, hcontrib0]
        refine ⟨rfl, by simp, by simp, by simp, ?_⟩
        intro s2 hs2
        simp only [List.nil_append, List.mem_singleton] at hs2
        subst hs2
        exact ⟨le_refl _, le_refl _⟩
  | some sum =>
    have hmem : (sampleKey s, sum) ∈ m := lookup_mem hlk
    have hspecSum := hspec _ hmem
    have hts : sum.timestamp = ts := hspecSum.1
    have hguard : ¬(sum.timestamp ≠ ts) := by simp [hts]
    have heq : updateSummary m s ts = Except.ok (m.map fun e =>
        if e.1 = sampleKey s then
          (e.1,
            { sum with
              numValues := sum.numValues + 1
              minValue := min s.value sum.minValue
              maxValue := max s.value sum.maxValue
              avgValue := sum.avgValue *
                  ((((sum.numValues + 1 : Int) : ℚ) - 1) / ((sum.numValues + 1 : Int) : ℚ)) +
                s.value * (1 / ((sum.numValues + 1 : Int) : ℚ)) })
        else e) := by
      unfold updateSummary
      rw [hlk]
      dsimp only
      rw [if_neg hguard]
    have hkeys : ∀ (u : String × Summary → String × Summary),
        (∀ e, (u e).1 = e.1) → (m.map u).map Prod.fst = m.map Prod.fst := by
      intro u hu
      rw [List.map_map]
      exact List.map_congr_left fun e _ => hu e
    refine ⟨_, heq, ?_, ?_, ?_⟩
    · rw [hkeys _ fun e => by by_cases hc : e.1 = sampleKey s <;> simp [hc]]
      exact hnd
    · intro s2 hs2
      rw [hkeys _ fun e => by by_cases hc : e.1 = sampleKey s <;> simp [hc]]
      rcases List.mem_append.mp hs2 with h | h
      · exact hpres s2 h
      · simp only [List.mem_singleton] at h
        subst h
        exact List.mem_map_of_mem Prod.fst hmem
    · intro e2 he2
      rcases List.mem_map.mp he2 with ⟨e, he, rfl⟩
      by_cases he1 : e.1 = sampleKey s
      · have heq2 : e = (sampleKey s, e.2) := by
          rw [← he1]
        have hesum : e.2 = sum :=
          nodup_key_unique hnd (heq2 ▸ he) hmem
        obtain ⟨_, hlen0, hnum, havg, hbound⟩ := hspecSum
        have hcon : contrib (processed ++ [s]) e.1 =
            contrib processed (sampleKey s) ++ [s] := by
          rw [he1]
          exact contrib_append_eq rfl
        unfold EntrySpec
        rw [if_pos he1, hcon]
        have hcast : ((sum.numValues + 1 : Int) : ℚ) =
            ((contrib processed (sampleKey s)).length : ℚ) + 1 := by
          rw [hnum]
          push_cast
          ring
        have hNpos : (0 : ℚ) < ((contrib processed (sampleKey s)).length : ℚ) + 1 := by
          positivity
        refine ⟨hts, by simp, ?_, ?_, ?_⟩
        · simp only [List.length_append, List.length_singleton]
          rw [hnum]
          push_cast
          ring
        · simp only [List.length_append, List.length_singleton, List.map_append,
            List.sum_append, List.map_cons, List.map_nil, List.sum_cons, List.sum_nil]
          rw [hcast]
          have hNe : ((contrib processed (sampleKey s)).length : ℚ) + 1 ≠ 0 :=
            ne_of_gt hNpos
          field_simp
          nlinarith [havg]
        · intro s2 hs2
          rcases List.mem_append.mp hs2 with h | h
          · have hb := hbound s2 h
            constructor
            · exact le_trans (min_le_right _ _) hb.1
            · exact le_trans hb.2 (le_max_right _ _)
          · simp only [List.mem_singleton] at h
            subst h
            exact ⟨min_le_left _ _, le_max_left _ _⟩
      · have hne : sampleKey s ≠ e.1 := fun hc => he1 hc.symm
        have hold := hspec e he
        unfold EntrySpec at hold ⊢
        rw [if_neg he1, contrib_append_ne hne]
        exact hold

/-- Folding updateSummary over a sample list keeps the invariant and never
panics when all calls share the period start. -/
theorem runUpdateSummaries_inv (ts : Int) :
    ∀ (rest processed : List Sample) (m : List (String × Summary)),
      MapInv ts processed m →
      ∃ m2, rest.foldlM (fun m s => updateSummary m s ts) m = Except.ok m2 ∧
        MapInv ts (processed ++ rest) m2 := by
  intro rest
  induction rest with
  | nil =>
    intro processed m hinv
    exact ⟨m, rfl, by simpa using hinv⟩
  | cons s r ih =>
    intro processed m hinv
    rcases updateSummary_step ts processed m s hinv with ⟨m1, hstep, hinv1⟩
    rcases ih (processed ++ [s]) m1 hinv1 with ⟨m2, hfold, hinv2⟩
    refine ⟨m2, ?_, by simpa [List.append_assoc] using hinv2⟩
    rw [List.foldlM_cons, hstep]
    simpa using hfold

/-- A value at most every member of a list bounds the sum from below. -/
theorem mul_length_le_sum (l : List ℚ) (b : ℚ) (h : ∀ v ∈ l, b ≤ v) :
    b * l.length ≤ l.sum := by
  induction l with
  | nil => simp
  | cons v tl ih =>
    simp only [List.length_cons, List.sum_cons]
    have h1 := h v (List.mem_cons_self _ _)
    have h2 := ih fun u hu => h u (List.mem_cons_of_mem _ hu)
    push_cast
    nlinarith

/-- A value at least every member of a list bounds the sum from above. -/
theorem sum_le_mul_length (l : List ℚ) (b : ℚ) (h : ∀ v ∈ l, v ≤ b) :
    l.sum ≤ b * l.length := by
  induction l with
  | nil => simp
  | cons v tl ih =>
    simp only [List.length_cons, List.sum_cons]
    have h1 := h v (List.mem_cons_self _ _)
    have h2 := ih fun u hu => h u (List.mem_cons_of_mem _ hu)
    push_cast
    nlinarith

/-- C9: for every sequence of updateSummary calls over samples sharing one
period start, starting from the empty map as summarizeDay does, no call
panics, and every summary in the resulting map satisfies min ≤ avg ≤ max,
with avg exactly the arithmetic mean of the contributing values (so, with the
float32 operations modelled by exact rationals, avg equals the mean up to
float rounding) and numValues their count. -/
theorem updateSummary_min_avg_max (samples : List Sample) (ts : Int) :
    ∃ m, runUpdateSummaries samples ts = Except.ok m ∧
      ∀ e ∈ m,
        (e.2.minValue ≤ e.2.avgValue ∧ e.2.avgValue ≤ e.2.maxValue) ∧
        e.2.numValues = ((samples.filter fun s => sampleKey s = e.1).length : Int) ∧
        e.2.avgValue =
          ((samples.filter fun s => sampleKey s = e.1).map Sample.value).sum /
            ((samples.filter fun s => sampleKey s = e.1).length : ℚ) := by
  have hinit : MapInv ts [] [] :=
    ⟨List.nodup_nil, fun s hs => absurd hs (List.not_mem_nil s),
      fun e he => absurd he (List.not_mem_nil e)⟩
  rcases runUpdateSummaries_inv ts samples [] [] hinit with ⟨m, hfold, hinv⟩
  rw [List.nil_append] at hinv
  obtain ⟨hnd, hpres, hspec⟩ := hinv
  refine ⟨m, hfold, ?_⟩
  intro e he
  obtain ⟨hts, hlen0, hnum, havg, hbound⟩ := hspec e he
  have hcon : contrib samples e.1 = samples.filter fun s => sampleKey s = e.1 := rfl
  rw [hcon] at hlen0 hnum havg hbound
  have hlenpos : (0 : ℚ) < ((samples.filter fun s => sampleKey s = e.1).length : ℚ) := by
    exact_mod_cast hlen0
  have hlennz : ((samples.filter fun s => sampleKey s = e.1).length : ℚ) ≠ 0 :=
    ne_of_gt hlenpos
  have havgdiv : e.2.avgValue =
      ((samples.filter fun s => sampleKey s = e.1).map Sample.value).sum /
        ((samples.filter fun s => sampleKey s = e.1).length : ℚ) :=
    (eq_div_iff hlennz).mpr havg
  refine ⟨⟨?_, ?_⟩, hnum, havgdiv⟩
  · have hlb := mul_length_le_sum
      ((samples.filter fun s => sampleKey s = e.1).map Sample.value) e.2.minValue
      (by
        intro v hv
        rcases List.mem_map.mp hv with ⟨s2, hs2, rfl⟩
        exact (hbound s2 hs2).1)
    rw [List.length_map] at hlb
    nlinarith
  · have hub := sum_le_mul_length
      ((samples.filter fun s => sampleKey s = e.1).map Sample.value) e.2.maxValue
      (by
        intro v hv
        rcases List.mem_map.mp hv with ⟨s2, hs2, rfl⟩
        exact (hbound s2 hs2).2)
    rw [List.length_map] at hub
    nlinarith

/-- Witness for C9: three concrete samples, two sharing a key. -/
theorem updateSummary_min_avg_max_witness :
    ∃ m, runUpdateSummaries
        [⟨100, "a", "b", 1⟩, ⟨150, "a", "b", 2⟩, ⟨200, "c", "d", 5⟩] 0 =
        Except.ok m ∧
      ∀ e ∈ m,
        (e.2.minValue ≤ e.2.avgValue ∧ e.2.avgValue ≤ e.2.maxValue) ∧
        e.2.numValues = ((([⟨100, "a", "b", 1⟩, ⟨150, "a", "b", 2⟩,
          ⟨200, "c", "d", 5⟩] : List Sample).filter
            fun s => sampleKey s = e.1).length : Int) ∧
        e.2.avgValue =
          ((([⟨100, "a", "b", 1⟩, ⟨150, "a", "b", 2⟩,
            ⟨200, "c", "d", 5⟩] : List Sample).filter
              fun s => sampleKey s = e.1).map Sample.value).sum /
            ((([⟨100, "a", "b", 1⟩, ⟨150, "a", "b", 2⟩,
              ⟨200, "c", "d", 5⟩] : List Sample).filter
                fun s => sampleKey s = e.1).length : ℚ) :=
  updateSummary_min_avg_max
    [⟨100, "a", "b", 1⟩, ⟨150, "a", "b", 2⟩, ⟨200, "c", "d", 5⟩] 0

/-- getSampleId (storage common.go lines 80-82): the datastore key
"{unix}|{source}|{name}" of a sample. -/
def getSampleId (s : Sample) : String :=
  toString s.ts ++ "|" ++ s.source ++ "|" ++ s.name

/-- WriteSamples (storage common.go lines 69-76): an upsert of each sample
under its key, modelled on the store's sample list: an existing entity with
the same key is replaced, otherwise the sample is appended. -/
def WriteSamples (store : List Sample) (samples : List Sample) : List Sample :=
  samples.foldl
    (fun st s => (st.filter fun u => getSampleId u ≠ getSampleId s) ++ [s]) store

end Storage

namespace App

/-- handleReport (appengine/app/main.go lines 87-122) as a function of the
request (method, form fields d and s) and the stored samples, returning the
HTTP status it responds with and the store afterwards. The SHA-256 helper
common.HashStringWithSHA256 and the sample-line codec common.Sample.Parse are
parameters: the handler only compares, respectively propagates, their
outputs, and the claims hold for every choice. writeFails selects the
storage.WriteSamples error path. -/
def handleReport (hash : String → String)
    (parse : String → Int → Option Storage.Sample) (secret : String)
    (writeFails : Bool) (method d sig : String) (now : Int)
    (store : List Storage.Sample) : Nat × List Storage.Sample :=
  if method ≠ "POST" then (405, store)
  else if sig ≠ hash (d ++ "|" ++ secret) then (400, store)
  else
    match (d.splitOn "\n").mapM (fun line => parse line now) with
    | none => (400, store)
    | some samples =>
      if writeFails then (500, store)
      else (200, Storage.WriteSamples store samples)

/-- C4: every POST report whose signature field differs from the hash of
"{d}|{secret}" is answered with HTTP 400 and performs no sample write: the
stored samples are returned unchanged, whatever the payload, the parser, the
hash function and the store contents. -/
theorem handleReport_bad_signature (hash : String → String)
    (parse : String → Int → Option Storage.Sample) (secret : String)
    (writeFails : Bool) (d sig : String) (now : Int)
    (store : List Storage.Sample)
    (hsig : sig ≠ hash (d ++ "|" ++ secret)) :
    handleReport hash parse secret writeFails "POST" d sig now store =
      (400, store) := by
  unfold handleReport
  rw [if_neg (by simp), if_pos hsig]

/-- Witness for C4 at a concrete request with a wrong signature. -/
theorem handleReport_bad_signature_witness :
    ("zzz" ≠ (fun x => x) ("1|a|b|1.0" ++ "|" ++ "sec")) ∧
    handleReport (fun x => x) (fun _ _ => none) "sec" false "POST"
      "1|a|b|1.0" "zzz" 7 [] = (400, []) :=
  ⟨by decide,
    handleReport_bad_signature (fun x => x) (fun _ _ => none) "sec" false
      "1|a|b|1.0" "zzz" 7 [] (by decide)⟩

end App

namespace Collector

/-- The observable outcome of one PostForm call by the reporter: a transport
error (connect failure or timeout, err != nil), or a response with the given
status code. -/
inductive SendOutcome where
  | connErr
  | status (code : Int)
deriving Repr, DecidableEq

/-- The error decision of sendSamplesToServer (reporter code lines 171-181):
a transport error is an error, and a response is a success exactly when its
status code is 200; the code tests resp.StatusCode != 200. The payload
construction and signing do not influence the decision and are not modelled
here. Returns true when no error is reported. -/
def sendSamplesToServerOk (o : SendOutcome) : Bool :=
  match o with
  | SendOutcome.connErr => false
  | SendOutcome.status code => code == 200

/-- The walk over a snapshot of the queue (processSamples, reporter code
lines 123-134): send slices of at most batchSize samples in order; a
successful send advances to the next slice; an error marks gotError and
stops, leaving the unsent remainder (the failed slice included). resp gives
the outcome of the k-th POST of the walk; the result is the list of
successfully sent slices, the gotError flag and the remaining samples. fuel
bounds the passes; walkSnapshot supplies the snapshot length, which is
enough when batchSize is positive. -/
def walkGo (batchSize : Nat) (resp : Nat → SendOutcome) :
    Nat → Nat → List Storage.Sample →
      List (List Storage.Sample) × Bool × List Storage.Sample
  | _, _, [] => ([], false, [])
  | 0, _, samples => ([], false, samples)
  | fuel + 1, k, samples =>
    if sendSamplesToServerOk (resp k) then
      let r := walkGo batchSize resp fuel (k + 1) (samples.drop batchSize)
      (samples.take batchSize :: r.1, r.2.1, r.2.2)
    else
      ([], true, samples)

/-- The whole walk over one snapshot. -/
def walkSnapshot (batchSize : Nat) (resp : Nat → SendOutcome)
    (samples : List Storage.Sample) :
    List (List Storage.Sample) × Bool × List Storage.Sample :=
  walkGo batchSize resp samples.length 0 samples

/-- The slices of at most batchSize samples the walk attempts, in order. -/
def chunksOf (batchSize : Nat) :
    Nat → List Storage.Sample → List (List Storage.Sample)
  | _, [] => []
  | 0, _ => []
  | fuel + 1, samples =>
    samples.take batchSize :: chunksOf batchSize fuel (samples.drop batchSize)

/-- All slices of a snapshot. -/
def chunks (batchSize : Nat) (samples : List Storage.Sample) :
    List (List Storage.Sample) :=
  chunksOf batchSize samples.length samples

/-- chunksOf ignores the fuel once it covers the snapshot length. -/
theorem chunksOf_fuel (bs : Nat) (hbs : 0 < bs) :
    ∀ (fuel fuel2 : Nat) (samples : List Storage.Sample),
      samples.length ≤ fuel → samples.length ≤ fuel2 →
      chunksOf bs fuel samples = chunksOf bs fuel2 samples := by
  intro fuel
  induction fuel with
  | zero =>
    intro fuel2 samples h1 _
    have hnil : samples = [] := List.eq_nil_of_length_eq_zero (Nat.le_zero.mp h1)
    subst hnil
    cases fuel2 <;> rfl
  | succ fuel ih =>
    intro fuel2 samples h1 h2
    cases samples with
    | nil => cases fuel2 <;> rfl
    | cons s tl =>
      cases fuel2 with
      | zero => simp at h2
      | succ fuel2 =>
        have e1 : chunksOf bs (fuel + 1) (s :: tl) =
            (s :: tl).take bs :: chunksOf bs fuel ((s :: tl).drop bs) := rfl
        have e2 : chunksOf bs (fuel2 + 1) (s :: tl) =
            (s :: tl).take bs :: chunksOf bs fuel2 ((s :: tl).drop bs) := rfl
        rw [e1, e2]
        congr 1
        apply ih
        · rw [List.length_drop]
          simp only [List.length_cons] at h1 ⊢
          omega
        · rw [List.length_drop]
          simp only [List.length_cons] at h2 ⊢
          omega

/-- The slice decomposition of a nonempty snapshot. -/
theorem chunks_cons (bs : Nat) (hbs : 0 < bs) (s : Storage.Sample)
    (tl : List Storage.Sample) :
    chunks bs (s :: tl) = (s :: tl).take bs :: chunks bs ((s :: tl).drop bs) := by
  rw [chunks, chunks]
  have e1 : chunksOf bs ((s :: tl).length) (s :: tl) =
      (s :: tl).take bs :: chunksOf bs tl.length ((s :: tl).drop bs) := by
    rw [List.length_cons]
    rfl
  rw [e1]
  congr 1
  apply chunksOf_fuel bs hbs
  · rw [List.length_drop]
    simp only [List.length_cons]
    omega
  · exact Nat.le_refl _


/-- Concatenating the slices gives back the snapshot. -/
theorem chunks_join (bs : Nat) (hbs : 0 < bs) :
    ∀ (fuel : Nat) (samples : List Storage.Sample), samples.length ≤ fuel →
      (chunksOf bs fuel samples).flatten = samples := by
  intro fuel
  induction fuel with
  | zero =>
    intro samples h1
    have hnil : samples = [] := List.eq_nil_of_length_eq_zero (Nat.le_zero.mp h1)
    subst hnil
    rfl
  | succ fuel ih =>
    intro samples h1
    cases samples with
    | nil => rfl
    | cons s tl =>
      have e1 : chunksOf bs (fuel + 1) (s :: tl) =
          (s :: tl).take bs :: chunksOf bs fuel ((s :: tl).drop bs) := rfl
      rw [e1, List.flatten_cons]
      rw [ih _ (by rw [List.length_drop]; simp only [List.length_cons] at h1 ⊢; omega)]
      exact List.take_append_drop bs (s :: tl)

/-- A walk whose every attempt gets a 200 sends all slices in order, reports
no error and leaves nothing behind. -/
theorem walkGo_all_ok (bs : Nat) (hbs : 0 < bs) (resp : Nat → SendOutcome) :
    ∀ (fuel : Nat) (samples : List Storage.Sample) (k : Nat),
      samples.length ≤ fuel →
      (∀ j, j < (chunks bs samples).length →
        sendSamplesToServerOk (resp (k + j)) = true) →
      walkGo bs resp fuel k samples = (chunks bs samples, false, []) := by
  intro fuel
  induction fuel with
  | zero =>
    intro samples k h1 _
    have hnil : samples = [] := List.eq_nil_of_length_eq_zero (Nat.le_zero.mp h1)
    subst hnil
    rfl
  | succ fuel ih =>
    intro samples k h1 hok
    cases samples with
    | nil => rfl
    | cons s tl =>
      rw [chunks_cons bs hbs] at hok ⊢
      have hok0 : sendSamplesToServerOk (resp k) = true := by
        have := hok 0 (by simp)
        simpa using this
      have e1 : walkGo bs resp (fuel + 1) k (s :: tl) =
          if sendSamplesToServerOk (resp k) then
            ((s :: tl).take bs ::
                (walkGo bs resp fuel (k + 1) ((s :: tl).drop bs)).1,
              (walkGo bs resp fuel (k + 1) ((s :: tl).drop bs)).2.1,
              (walkGo bs resp fuel (k + 1) ((s :: tl).drop bs)).2.2)
          else ([], true, s :: tl) := rfl
      rw [e1, if_pos hok0]
      have hrec := ih ((s :: tl).drop bs) (k + 1)
        (by rw [List.length_drop]; simp only [List.length_cons] at h1 ⊢; omega)
        (by
          intro j hj
          have := hok (j + 1) (by simpa using Nat.succ_lt_succ hj)
          have harith : k + (j + 1) = k + 1 + j := by omega
          rw [harith] at this
          exact this)
      rw [hrec]

/-- A walk whose first non-200 outcome comes at attempt j sends exactly the
first j slices, reports the error and leaves the remaining slices, the
failed one first. -/
theorem walkGo_first_fail (bs : Nat) (hbs : 0 < bs) (resp : Nat → SendOutcome) :
    ∀ (fuel j : Nat) (samples : List Storage.Sample) (k : Nat),
      samples.length ≤ fuel →
      j < (chunks bs samples).length →
      (∀ i, i < j → sendSamplesToServerOk (resp (k + i)) = true) →
      sendSamplesToServerOk (resp (k + j)) = false →
      walkGo bs resp fuel k samples =
        ((chunks bs samples).take j, true, ((chunks bs samples).drop j).flatten) := by
  intro fuel
  induction fuel with
  | zero =>
    intro j samples k h1 hj _ _
    have hnil : samples = [] := List.eq_nil_of_length_eq_zero (Nat.le_zero.mp h1)
    subst hnil
    simp [chunks, chunksOf] at hj
  | succ fuel ih =>
    intro j samples k h1 hj hok hfail
    cases samples with
    | nil => simp [chunks, chunksOf] at hj
    | cons s tl =>
      rw [chunks_cons bs hbs] at hj ⊢
      have e1 : walkGo bs resp (fuel + 1) k (s :: tl) =
          if sendSamplesToServerOk (resp k) then
            ((s :: tl).take bs ::
                (walkGo bs resp fuel (k + 1) ((s :: tl).drop bs)).1,
              (walkGo bs resp fuel (k + 1) ((s :: tl).drop bs)).2.1,
              (walkGo bs resp fuel (k + 1) ((s :: tl).drop bs)).2.2)
          else ([], true, s :: tl) := rfl
      cases j with
      | zero =>
        have hfail0 : sendSamplesToServerOk (resp k) = false := by
          simpa using hfail
        rw [e1, if_neg (by simp [hfail0])]
        have hjoin : (((s :: tl).take bs :: chunks bs ((s :: tl).drop bs))).flatten =
            s :: tl := by
          rw [List.flatten_cons, chunks, chunks_join bs hbs _ _ (Nat.le_refl _)]
          exact List.take_append_drop bs (s :: tl)
        simp [hjoin]
      | succ j =>
        have hok0 : sendSamplesToServerOk (resp k) = true := by
          have := hok 0 (Nat.succ_pos j)
          simpa using this
        rw [e1, if_pos hok0]
        have hrec := ih j ((s :: tl).drop bs) (k + 1)
          (by rw [List.length_drop]; simp only [List.length_cons] at h1 ⊢; omega)
          (by simpa using Nat.lt_of_succ_lt_succ (by simpa using hj))
          (by
            intro i hi
            have := hok (i + 1) (Nat.succ_lt_succ hi)
            have harith : k + (i + 1) = k + 1 + i := by omega
            rw [harith] at this
            exact this)
          (by
            have harith : k + (j + 1) = k + 1 + j := by omega
            rw [harith] at hfail
            exact hfail)
        rw [hrec]
        simp

/-- C5 counterexample: a 201 Created response, though 2xx, is treated as an
error by the reporter: sendSamplesToServer reports an error and the walk
marks got_error and stops instead of continuing, contradicting the claim
that any 2xx response is a success. -/
theorem reporter_2xx_counterexample :
    ((200 : Int) ≤ 201 ∧ (201 : Int) < 300) ∧
    sendSamplesToServerOk (SendOutcome.status 201) = false ∧
    walkSnapshot 1 (fun _ => SendOutcome.status 201) [⟨1, "a", "b", 1⟩] =
      ([], true, [⟨1, "a", "b", 1⟩]) :=
  ⟨⟨by norm_num, by norm_num⟩, rfl, rfl⟩

/-- C5 (amended): a response with status exactly 200 is treated as success
and the walk over the snapshot continues to the next slice; any other
outcome — connect error, timeout, or any non-200 status, other 2xx codes
included — marks got_error and stops the walk. Stated as: the error decision
accepts exactly status 200; a walk with all-200 responses sends every slice
in order with no error and no remainder; and a walk whose first non-success
comes at attempt j sends exactly the first j slices, sets got_error, and
leaves the rest of the snapshot, failed slice first. -/
theorem reporter_send_200_only (bs : Nat) (hbs : 0 < bs)
    (resp : Nat → SendOutcome) (samples : List Storage.Sample) :
    (sendSamplesToServerOk SendOutcome.connErr = false ∧
      ∀ c : Int, sendSamplesToServerOk (SendOutcome.status c) = true ↔ c = 200) ∧
    ((∀ j, j < (chunks bs samples).length → resp j = SendOutcome.status 200) →
      walkSnapshot bs resp samples = (chunks bs samples, false, [])) ∧
    (∀ j, j < (chunks bs samples).length →
      (∀ i, i < j → sendSamplesToServerOk (resp i) = true) →
      sendSamplesToServerOk (resp j) = false →
      walkSnapshot bs resp samples =
        ((chunks bs samples).take j, true, ((chunks bs samples).drop j).flatten)) := by
  refine ⟨⟨rfl, fun c => by simp [sendSamplesToServerOk]⟩, ?_, ?_⟩
  · intro hall
    apply walkGo_all_ok bs hbs resp samples.length samples 0 (Nat.le_refl _)
    intro j hj
    rw [Nat.zero_add, hall j hj]
    rfl
  · intro j hj hok hfail
    apply walkGo_first_fail bs hbs resp samples.length j samples 0 (Nat.le_refl _) hj
    · intro i hi
      rw [Nat.zero_add]
      exact hok i hi
    · rw [Nat.zero_add]
      exact hfail

/-- Witness for C5's amended theorem: batch size one, two samples, all
responses 200. -/
theorem reporter_send_200_only_witness :
    (0 < 1) ∧
    ((∀ j, j < (chunks 1 [⟨1, "a", "b", 1⟩, ⟨2, "a", "b", 2⟩]).length →
        (fun _ => SendOutcome.status 200) j = SendOutcome.status 200) →
      walkSnapshot 1 (fun _ => SendOutcome.status 200)
          [⟨1, "a", "b", 1⟩, ⟨2, "a", "b", 2⟩] =
        (chunks 1 [⟨1, "a", "b", 1⟩, ⟨2, "a", "b", 2⟩], false, [])) :=
  ⟨Nat.one_pos,
    (reporter_send_200_only 1 Nat.one_pos (fun _ => SendOutcome.status 200)
      [⟨1, "a", "b", 1⟩, ⟨2, "a", "b", 2⟩]).2.1⟩

/-- The reporter state visible to the ordering claim: the producer queue
(queuedSamples), the snapshot the worker is still walking (the unsent tail of
the samples it took), the successfully POSTed batches in order, and the ghost
log of everything ever enqueued, in order. -/
structure RepState where
  queue : List Storage.Sample
  inflight : List Storage.Sample
  sentOk : List (List Storage.Sample)
  enqueued : List Storage.Sample
deriving Repr, DecidableEq

/-- The reporter transitions (reporter code): producers append to the queue
under the lock (reportSamples, lines 89-97); the worker snapshots and clears
the queue when idle (lines 117-119); each successful POST sends the snapshot's
next slice of at most batchSize samples (lines 124-134); a failed POST stops
the walk and pushes the unsent remainder, failed slice included, back to the
FRONT of the queue, ahead of anything enqueued meanwhile (lines 136-142).
Enqueues may interleave with the walk: the worker holds no lock while
sending. -/
inductive Step (bs : Nat) : RepState → RepState → Prop where
  | enqueue (σ : RepState) (ss : List Storage.Sample) :
      Step bs σ ⟨σ.queue ++ ss, σ.inflight, σ.sentOk, σ.enqueued ++ ss⟩
  | take (σ : RepState) (h : σ.inflight = []) :
      Step bs σ ⟨[], σ.queue, σ.sentOk, σ.enqueued⟩
  | sendOk (σ : RepState) (h : σ.inflight ≠ []) :
      Step bs σ
        ⟨σ.queue, σ.inflight.drop bs, σ.sentOk ++ [σ.inflight.take bs], σ.enqueued⟩
  | sendFail (σ : RepState) (h : σ.inflight ≠ []) :
      Step bs σ ⟨σ.inflight ++ σ.queue, [], σ.sentOk, σ.enqueued⟩

/-- The reporter's initial state: everything empty. -/
def initRep : RepState :=
  ⟨[], [], [], []⟩

/-- Splitting the middle list of a three-part concatenation at any index
leaves the concatenation unchanged. -/
theorem append_take_drop_middle {α : Type*} (A f q : List α) (bs : Nat) :
    ((A ++ f.take bs) ++ f.drop bs) ++ q = (A ++ f) ++ q := by
  rw [List.append_assoc A (f.take bs) (f.drop bs), List.take_append_drop]

/-- C6: in every reachable reporter state, under any interleaving of
enqueues, send failures and retries, the successfully POSTed samples followed
by the unsent snapshot remainder and then the queue are exactly the enqueued
samples in enqueue order. Hence the samples in successful POSTs are always a
prefix of the enqueue order (order preserved, nothing reordered by pushback),
and whenever the reporter drains (empty queue and snapshot) every enqueued
sample has been delivered, each at least once. -/
theorem reporter_fifo (bs : Nat) (σ : RepState)
    (h : Relation.ReflTransGen (Step bs) initRep σ) :
    σ.sentOk.flatten ++ σ.inflight ++ σ.queue = σ.enqueued ∧
    (∃ rest, σ.enqueued = σ.sentOk.flatten ++ rest) ∧
    (σ.inflight = [] → σ.queue = [] → σ.sentOk.flatten = σ.enqueued) := by
  have hinv : σ.sentOk.flatten ++ σ.inflight ++ σ.queue = σ.enqueued := by
    induction h with
    | refl => rfl
    | tail hsteps hstep ih =>
      cases hstep with
      | enqueue ss =>
        simp only [← List.append_assoc] at ih ⊢
        rw [ih]
      | take h2 =>
        rw [h2] at ih
        simp only [List.append_nil, List.nil_append] at ih ⊢
        exact ih
      | sendOk h2 =>
        simp only [List.flatten_append, List.flatten_cons, List.flatten_nil,
          List.append_nil]
        rw [append_take_drop_middle]
        exact ih
      | sendFail h2 =>
        simp only [List.append_nil, ← List.append_assoc] at ih ⊢
        exact ih
  refine ⟨hinv, ⟨σ.inflight ++ σ.queue, by rw [← hinv, List.append_assoc]⟩, ?_⟩
  intro h1 h2
  rw [h1, h2] at hinv
  simpa using hinv

/-- Witness for C6: enqueue two samples, take them, fail the first send (the
snapshot returns to the front of the queue), retake and send them in one
batch; everything enqueued is delivered in order. -/
theorem reporter_fifo_witness :
    ([[⟨1, "a", "b", 1⟩, ⟨2, "a", "b", 2⟩]] : List (List Storage.Sample)).flatten ++
        [] ++ [] = [⟨1, "a", "b", 1⟩, ⟨2, "a", "b", 2⟩] ∧
    (∃ rest, [⟨1, "a", "b", 1⟩, ⟨2, "a", "b", 2⟩] =
      ([[⟨1, "a", "b", 1⟩, ⟨2, "a", "b", 2⟩]] :
        List (List Storage.Sample)).flatten ++ rest) ∧
    (([] : List Storage.Sample) = [] → ([] : List Storage.Sample) = [] →
      ([[⟨1, "a", "b", 1⟩, ⟨2, "a", "b", 2⟩]] :
        List (List Storage.Sample)).flatten =
        [⟨1, "a", "b", 1⟩, ⟨2, "a", "b", 2⟩]) :=
  reporter_fifo 2
    ⟨[], [], [[⟨1, "a", "b", 1⟩, ⟨2, "a", "b", 2⟩]],
      [⟨1, "a", "b", 1⟩, ⟨2, "a", "b", 2⟩]⟩
    (by
      apply Relation.ReflTransGen.tail
      apply Relation.ReflTransGen.tail
      apply Relation.ReflTransGen.tail
      apply Relation.ReflTransGen.tail
      apply Relation.ReflTransGen.tail (Relation.ReflTransGen.refl)
      · exact Step.enqueue initRep [⟨1, "a", "b", 1⟩, ⟨2, "a", "b", 2⟩]
      · exact Step.take ⟨[⟨1, "a", "b", 1⟩, ⟨2, "a", "b", 2⟩], [], [], [⟨1, "a", "b", 1⟩, ⟨2, "a", "b", 2⟩]⟩ rfl
      · exact Step.sendFail ⟨[], [⟨1, "a", "b", 1⟩, ⟨2, "a", "b", 2⟩], [], [⟨1, "a", "b", 1⟩, ⟨2, "a", "b", 2⟩]⟩ (by simp)
      · exact Step.take ⟨[⟨1, "a", "b", 1⟩, ⟨2, "a", "b", 2⟩], [], [], [⟨1, "a", "b", 1⟩, ⟨2, "a", "b", 2⟩]⟩ rfl
      · exact Step.sendOk ⟨[], [⟨1, "a", "b", 1⟩, ⟨2, "a", "b", 2⟩], [], [⟨1, "a", "b", 1⟩, ⟨2, "a", "b", 2⟩]⟩ (by simp))

end Collector

namespace Alert

/-- Condition (alert code lines 26-37): an alert rule comparing the latest
sample of source/name against Value under Op; for "ot" (older than), Value is
a number of seconds. Value is a float32 modelled as an exact rational. -/
structure Condition where
  source : String
  name : String
  op : String
  value : ℚ
deriving Repr, DecidableEq

/-- Truncation toward zero of a rational, modelling the Go conversion of the
float32 c.Value to the integer type time.Duration in
time.Duration(c.Value). -/
def ratTrunc (q : ℚ) : Int :=
  if 0 ≤ q then ⌊q⌋ else ⌈q⌉

/-- Condition.active (alert code lines 45-64), with the Go switch written as
the equivalent if-chain in the same order. s is the latest sample (nil when
the series has none); now is the evaluation instant in seconds: time.Now has
sub-second precision, so now is rational, while sample timestamps are unix
seconds. For "ot" the comparison mirrors
now.Sub(s.Timestamp) > time.Duration(c.Value)*time.Second: Duration(c.Value)
truncates the float threshold toward zero, and scaling by time.Second
compares whole seconds, so the sample is stale when now − ts exceeds
trunc(Value) seconds. An unknown operator is the error return. -/
def Condition.active (c : Condition) (s : Option Storage.Sample) (now : ℚ) :
    Except String Bool :=
  if c.op = "eq" then
    Except.ok (match s with | none => false | some u => decide (u.value = c.value))
  else if c.op = "ne" then
    Except.ok (match s with | none => false | some u => decide (u.value ≠ c.value))
  else if c.op = "lt" then
    Except.ok (match s with | none => false | some u => decide (u.value < c.value))
  else if c.op = "gt" then
    Except.ok (match s with | none => false | some u => decide (u.value > c.value))
  else if c.op = "le" then
    Except.ok (match s with | none => false | some u => decide (u.value ≤ c.value))
  else if c.op = "ge" then
    Except.ok (match s with | none => false | some u => decide (u.value ≥ c.value))
  else if c.op = "ot" then
    Except.ok (match s with
      | none => true
      | some u => decide (now - (u.ts : ℚ) > (ratTrunc c.value : ℚ)))
  else
    Except.error ("Invalid condition " ++ c.op)

/-- C7 counterexample: with the float threshold 5.5 (representable in
float32) and a sample at t = 0, evaluating at now = 5.2 s the code reports
the condition ACTIVE (the truncated threshold is 5 s and 5.2 > 5), while the
claim's formula now − timestamp > value says inactive (5.2 is not greater
than 5.5). -/
theorem condition_ot_counterexample :
    (⟨"a", "h", "ot", 11 / 2⟩ : Condition).active (some ⟨0, "a", "h", 1⟩) (26 / 5) =
      Except.ok true ∧
    ¬((26 / 5 : ℚ) - ((0 : Int) : ℚ) > (11 / 2 : ℚ)) := by
  constructor
  · have htr : ratTrunc (11 / 2 : ℚ) = 5 := by
      rw [ratTrunc, if_pos (by norm_num)]
      norm_num [Int.floor_eq_iff]
    unfold Condition.active
    rw [if_neg (by decide), if_neg (by decide), if_neg (by decide),
      if_neg (by decide), if_neg (by decide), if_neg (by decide), if_pos rfl]
    dsimp only
    rw [htr]
    norm_num
  · norm_num

/-- C7 (amended): for every condition with op "ot" and threshold value v,
evaluation at time now is active if and only if the latest sample is missing
or now − sample.timestamp > trunc(v) seconds, where trunc truncates the
float32 threshold toward zero (the Duration conversion); for integral v this
is now − sample.timestamp > v, and in particular with v = 5 and a sample at
t = 0 the condition is inactive at now = 5 and active at now = 6. -/
theorem condition_ot_active (c : Condition) (s : Option Storage.Sample)
    (now : ℚ) (hop : c.op = "ot") :
    ∃ b, c.active s now = Except.ok b ∧
      (b = true ↔ s = none ∨
        ∃ u, s = some u ∧ now - (u.ts : ℚ) > (ratTrunc c.value : ℚ)) := by
  unfold Condition.active
  rw [hop]
  rw [if_neg (by decide), if_neg (by decide), if_neg (by decide),
    if_neg (by decide), if_neg (by decide), if_neg (by decide), if_pos rfl]
  cases s with
  | none => exact ⟨true, rfl, by simp⟩
  | some u =>
    refine ⟨_, rfl, ?_⟩
    simp only [decide_eq_true_eq]
    constructor
    · intro h
      exact Or.inr ⟨u, rfl, h⟩
    · intro h
      rcases h with h | ⟨u2, hu2, h⟩
      · exact absurd h (by simp)
      · rw [Option.some_inj] at hu2
        subst hu2
        exact h

/-- Witness for C7's amended theorem at the claim's own instance: v = 5,
sample at t = 0; trunc(5) = 5, so the condition is active at now = 6 and
inactive at now = 5. -/
theorem condition_ot_active_witness :
    ((⟨"a", "h", "ot", 5⟩ : Condition).op = "ot" ∧
      (∃ b, (⟨"a", "h", "ot", 5⟩ : Condition).active (some ⟨0, "a", "h", 1⟩) 6 =
          Except.ok b ∧
        (b = true ↔ (some ⟨0, "a", "h", 1⟩ : Option Storage.Sample) = none ∨
          ∃ u, (some ⟨0, "a", "h", 1⟩ : Option Storage.Sample) = some u ∧
            (6 : ℚ) - (u.ts : ℚ) >
              ((ratTrunc (⟨"a", "h", "ot", 5⟩ : Condition).value : Int) : ℚ)))) ∧
    (∃ b, (⟨"a", "h", "ot", 5⟩ : Condition).active (some ⟨0, "a", "h", 1⟩) 5 =
        Except.ok b ∧
      (b = true ↔ (some ⟨0, "a", "h", 1⟩ : Option Storage.Sample) = none ∨
        ∃ u, (some ⟨0, "a", "h", 1⟩ : Option Storage.Sample) = some u ∧
          (5 : ℚ) - (u.ts : ℚ) >
            ((ratTrunc (⟨"a", "h", "ot", 5⟩ : Condition).value : Int) : ℚ))) :=
  ⟨⟨rfl, condition_ot_active ⟨"a", "h", "ot", 5⟩ (some ⟨0, "a", "h", 1⟩) 6 rfl⟩,
    condition_ot_active ⟨"a", "h", "ot", 5⟩ (some ⟨0, "a", "h", 1⟩) 5 rfl⟩

end Alert

namespace Query

/-- QueryGranularity (query.go lines 32-38). -/
inductive QueryGranularity where
  | individualSample
  | hourlyAverage
  | dailyAverage
deriving Repr, DecidableEq

/-- maxQueryPoints (query.go line 22). -/
def maxQueryPoints : Int := 100

/-- Nanoseconds per hour: Go durations are int64 nanosecond counts and
time.Hour = 3600 * 10^9. -/
def nsPerHour : Int := 3600 * 1000000000

/-- QueryParams (query.go lines 41-59). Start and End are instants, here in
nanoseconds so that the duration divisions match Go's Duration arithmetic
exactly. The Lean field endTime stands for the Go field End, whose name is
reserved in Lean. -/
structure QueryParams where
  labels : List String
  sourceNames : List String
  start : Int
  endTime : Int
  granularity : QueryGranularity
  aggregation : Int
deriving Repr, DecidableEq

/-- UpdateGranularityAndAggregation (query.go lines 65-94). Go int division
truncates toward zero (Int.tdiv); sampleStart is an optional oldest-sample
time with the zero time modelled none (the code tests sampleStart.IsZero()).
Go assigns Aggregation = 1 and then overwrites it inside each branch when
the matching count exceeds maxQueryPoints; the conditional expression here
is the same assignment. -/
def UpdateGranularityAndAggregation (qp : QueryParams) (sampleInterval : Int)
    (sampleStart : Option Int) : QueryParams :=
  let queryDuration := qp.endTime - qp.start
  let day := 24 * nsPerHour
  let dayCount := queryDuration.tdiv day
  let hourCount := queryDuration.tdiv nsPerHour
  let sampleCount := queryDuration.tdiv sampleInterval
  let samplesPerHour := nsPerHour.tdiv sampleInterval
  let hoursPerDay := day.tdiv nsPerHour
  let samplesMissing :=
    match sampleStart with
    | none => false
    | some t => decide (qp.start < t)
  if (hourCount.tdiv hoursPerDay) * 2 > maxQueryPoints then
    { qp with
      granularity := QueryGranularity.dailyAverage
      aggregation := if dayCount > maxQueryPoints then dayCount.tdiv maxQueryPoints else 1 }
  else if samplesMissing ||
      decide ((sampleCount.tdiv samplesPerHour) * 2 > maxQueryPoints) then
    { qp with
      granularity := QueryGranularity.hourlyAverage
      aggregation := if hourCount > maxQueryPoints then hourCount.tdiv maxQueryPoints else 1 }
  else
    { qp with
      granularity := QueryGranularity.individualSample
      aggregation := if sampleCount > maxQueryPoints then sampleCount.tdiv maxQueryPoints else 1 }

/-- C8: for every start/end pair and positive sample interval,
UpdateGranularityAndAggregation selects DailyAverage exactly when
hourCount / 24 · 2 > 100, where hourCount = (end − start) / 1h and both
divisions truncate as Go integer division does. -/
theorem updateGranularity_daily_iff (qp : QueryParams) (sampleInterval : Int)
    (sampleStart : Option Int) (_hsi : 0 < sampleInterval) :
    (UpdateGranularityAndAggregation qp sampleInterval sampleStart).granularity =
      QueryGranularity.dailyAverage ↔
    (((qp.endTime - qp.start).tdiv nsPerHour).tdiv 24) * 2 > 100 := by
  have hhpd : (24 * nsPerHour).tdiv nsPerHour = 24 := by decide
  simp only [UpdateGranularityAndAggregation]
  rw [hhpd]
  by_cases hc : (((qp.endTime - qp.start).tdiv nsPerHour).tdiv 24) * 2 > maxQueryPoints
  · rw [if_pos hc]
    simpa [maxQueryPoints] using hc
  · rw [if_neg hc]
    by_cases hc2 : ((match sampleStart with
        | none => false
        | some t => decide (qp.start < t)) ||
        decide ((((qp.endTime - qp.start).tdiv sampleInterval).tdiv
          (nsPerHour.tdiv sampleInterval)) * 2 > maxQueryPoints)) = true
    · rw [if_pos hc2]
      simp only [maxQueryPoints] at hc
      simpa using hc
    · rw [if_neg hc2]
      simp only [maxQueryPoints] at hc
      simpa using hc

/-- Witness for C8: a 59-day window sampled every 5 minutes picks
DailyAverage (hourCount = 1416, 1416/24·2 = 118 > 100), as in
TestQueryParamsUpdateGranularityAndAggregation. -/
theorem updateGranularity_daily_iff_witness :
    (0 : Int) < 300 * 1000000000 ∧
    ((UpdateGranularityAndAggregation
        ⟨["A"], ["a|b"], 0, 59 * 24 * 3600 * 1000000000,
          QueryGranularity.individualSample, 1⟩
        (300 * 1000000000) none).granularity =
      QueryGranularity.dailyAverage ↔
    ((((59 * 24 * 3600 * 1000000000 : Int) - 0).tdiv nsPerHour).tdiv 24) * 2 > 100) :=
  ⟨by norm_num,
    updateGranularity_daily_iff
      ⟨["A"], ["a|b"], 0, 59 * 24 * 3600 * 1000000000,
        QueryGranularity.individualSample, 1⟩
      (300 * 1000000000) none (by norm_num)⟩

end Query

end Home
